import Mathlib

/-!
Verification of the git-etl repository's ETL core: the git-log parser
(src/git-parser.ts), the aggregation transforms (src/transforms.ts and
the daily-stats aggregator), the upsert engine (src/database.ts) over the
SQLite tables of db/schema.ts, and the transaction coordinator
(src/transactions.ts).

JavaScript strings are modelled as lists of characters (`Str`), so that
every operation is structurally computable.  The JS string primitives the
source relies on (`split`, `trim`, `parseInt`, `Date.toISOString`) are
modelled below by structurally recursive functions with the same
behaviour on the inputs the code feeds them.
-/

namespace GitETL

/-- JavaScript strings, modelled as lists of characters. -/
abbrev Str := List Char

/-- Whitespace test used by JS `trim` and the `\s` regex class. -/
def isWS (c : Char) : Bool := c.isWhitespace

/-- Model of JS `String.prototype.trim`: strip leading and trailing
whitespace. -/
def trimStr (s : Str) : Str :=
  ((s.dropWhile isWS).reverse.dropWhile isWS).reverse

/-- Worker for `splitSep`; the fuel argument only makes the recursion
structural and is always sufficient. -/
def splitSepAux (sep : Str) : Nat → Str → Str → List Str
  | 0, _, acc => [acc.reverse]
  | _ + 1, [], acc => [acc.reverse]
  | fuel + 1, c :: rest, acc =>
    if sep.isPrefixOf (c :: rest) then
      acc.reverse :: splitSepAux sep fuel (List.drop (sep.length - 1) rest) []
    else
      splitSepAux sep fuel rest (c :: acc)

/-- Model of JS `String.prototype.split` with a non-empty string
separator: leftmost non-overlapping matches, empty pieces kept. -/
def splitSep (sep : Str) (s : Str) : List Str :=
  splitSepAux sep (s.length + 1) s []

/-- Split at every character satisfying `p`, keeping empty pieces. -/
def splitPred (p : Char → Bool) : Str → Str → List Str
  | [], acc => [acc.reverse]
  | c :: rest, acc =>
    if p c then acc.reverse :: splitPred p rest []
    else splitPred p rest (c :: acc)

/-- Model of JS `split(/\s+/)` on an already-trimmed string: the maximal
whitespace-free tokens. -/
def splitWs (s : Str) : List Str :=
  (splitPred isWS s []).filter (fun t => ¬ t.isEmpty)

/-- Decimal digit test. -/
def isDecDigit (c : Char) : Bool := '0' ≤ c ∧ c ≤ '9'

/-- Hexadecimal digit test. -/
def isHexDigit (c : Char) : Bool :=
  ('0' ≤ c ∧ c ≤ '9') ∨ ('a' ≤ c ∧ c ≤ 'f') ∨ ('A' ≤ c ∧ c ≤ 'F')

/-- Numeric value of a decimal or hexadecimal digit character. -/
def digitVal (c : Char) : Nat :=
  if '0' ≤ c ∧ c ≤ '9' then c.toNat - 48
  else if 'a' ≤ c ∧ c ≤ 'f' then c.toNat - 87
  else c.toNat - 55

/-- Value of a digit string in the given base. -/
def digitsVal (base : Nat) (ds : Str) : Nat :=
  ds.foldl (fun v c => v * base + digitVal c) 0

/-- Magnitude part of JS `parseInt` with no radix argument: an `0x`/`0X`
prefix selects base 16, otherwise the maximal leading run of decimal
digits is taken; no digit at all gives `NaN` (`none`). -/
def jsParseIntMag : Str → Option Nat
  | '0' :: 'x' :: rest =>
    let ds := rest.takeWhile isHexDigit
    if ds.isEmpty then none else some (digitsVal 16 ds)
  | '0' :: 'X' :: rest =>
    let ds := rest.takeWhile isHexDigit
    if ds.isEmpty then none else some (digitsVal 16 ds)
  | s =>
    let ds := s.takeWhile isDecDigit
    if ds.isEmpty then none else some (digitsVal 10 ds)

/-- Model of JS `parseInt(s)`: skip leading whitespace, optional sign,
then `jsParseIntMag`; `none` models `NaN`. -/
def jsParseInt (s : Str) : Option Int :=
  match s.dropWhile isWS with
  | '-' :: rest => (jsParseIntMag rest).map (fun n => -(n : Int))
  | '+' :: rest => (jsParseIntMag rest).map (fun n => (n : Int))
  | rest => (jsParseIntMag rest).map (fun n => (n : Int))

/-- Model of the JS idiom `parseInt(s) || 0`: `NaN` collapses to `0`. -/
def jsParseIntOr0 (s : Str) : Int := (jsParseInt s).getD 0

/-! ### Keyed association lists

Both the JS `Map` used by the aggregator (insertion-ordered, in-place
value update) and the storage engine's upsert against a unique index
(`INSERT ... ON CONFLICT DO UPDATE` / `INSERT OR IGNORE`) are
insert-or-merge operations on a keyed row list: merge into the first
row carrying the key, append when the key is new. -/

/-- Generic insert-or-merge keyed by `key`: merge into the first row
with the conflicting key, else append. -/
def upsertBy {ρ κ : Type} [DecidableEq κ] (key : ρ → κ) (merge : ρ → ρ → ρ) :
    List ρ → ρ → List ρ
  | [], new => [new]
  | r :: rest, new =>
    if key r = key new then merge r new :: rest
    else r :: upsertBy key merge rest new

/-- First row with the given key (the row a keyed SELECT would see). -/
def rowAt {ρ κ : Type} [DecidableEq κ] (key : ρ → κ) (table : List ρ) (k : κ) :
    Option ρ :=
  table.find? (fun r => decide (key r = k))

/-- Lexicographic comparison of two character lists by code point: the
order JS string comparison and SQLite BINARY collation use. -/
def strLe : Str → Str → Bool
  | [], _ => true
  | _ :: _, [] => false
  | a :: as, b :: bs =>
    if a.toNat < b.toNat then true
    else if b.toNat < a.toNat then false
    else strLe as bs

/-! ### Model of `Date.prototype.toISOString`

`new Date(ts * 1000).toISOString()` renders the UTC instant `ms`
milliseconds after the epoch.  The date part is computed with the
standard civil-from-days algorithm; rendering uses explicit digit
characters so that facts about the produced characters are provable. -/

/-- The character of a decimal digit. -/
def digitChar (n : Nat) : Char :=
  match n % 10 with
  | 0 => '0' | 1 => '1' | 2 => '2' | 3 => '3' | 4 => '4'
  | 5 => '5' | 6 => '6' | 7 => '7' | 8 => '8' | _ => '9'

/-- Worker for `natDigits`; the fuel is always sufficient. -/
def natDigitsAux : Nat → Nat → Str
  | 0, _ => []
  | fuel + 1, n =>
    if n < 10 then [digitChar n]
    else natDigitsAux fuel (n / 10) ++ [digitChar (n % 10)]

/-- Decimal digit characters of a natural number, most significant
first. -/
def natDigits (n : Nat) : Str := natDigitsAux (n + 1) n

/-- Decimal rendering of `n`, left-padded with zeros to width `k`. -/
def padDigits (k : Nat) (n : Nat) : Str :=
  let ds := natDigits n
  List.replicate (k - ds.length) '0' ++ ds

/-- Proleptic-Gregorian civil date `(year, month, day)` of a day number
(days since 1970-01-01). -/
def civilFromDays (z : Int) : Int × Nat × Nat :=
  let z2 := z + 719468
  let era := Int.fdiv z2 146097
  let doe := (z2 - era * 146097).toNat
  let yoe := (doe - doe / 1460 + doe / 36524 - doe / 146096) / 365
  let doy := doe - (365 * yoe + yoe / 4 - yoe / 100)
  let mp := (5 * doy + 2) / 153
  let d := doy - (153 * mp + 2) / 5 + 1
  let m := if mp < 10 then mp + 3 else mp - 9
  let y := era * 400 + (yoe : Int) + (if m ≤ 2 then 1 else 0)
  (y, m, d)

/-- Year field of an ISO-8601 timestamp as rendered by `toISOString`:
four digits for years 0–9999, otherwise a sign and six digits. -/
def isoYearChars (y : Int) : Str :=
  if 0 ≤ y ∧ y < 10000 then padDigits 4 y.toNat
  else if y < 0 then '-' :: padDigits 6 (-y).toNat
  else '+' :: padDigits 6 y.toNat

/-- The date part of `toISOString` (everything before the `T`), i.e. the
UTC calendar date of the instant `ms` milliseconds after the epoch.
This is what `toISOString().split("T")[0]` yields in the source. -/
def isoDatePart (ms : Int) : Str :=
  let c := civilFromDays (Int.fdiv ms 86400000)
  isoYearChars c.1 ++ '-' :: padDigits 2 c.2.1 ++ '-' :: padDigits 2 c.2.2

/-- Full `toISOString` rendering of the instant `ms` milliseconds after
the epoch. -/
def isoString (ms : Int) : Str :=
  let t := (Int.fmod ms 86400000).toNat
  isoDatePart ms ++ 'T' :: padDigits 2 (t / 3600000) ++
    ':' :: padDigits 2 (t / 60000 % 60) ++ ':' :: padDigits 2 (t / 1000 % 60) ++
    '.' :: padDigits 3 (t % 1000) ++ ['Z']

/-! ### Log parser (src/git-parser.ts)

`parseGitLog` in the source runs `git log` with the pretty format
`COMMIT_START%n%H%n%ae%n%an%n%ct%n%P%n%s%nCOMMIT_MSG_END` plus
`--numstat` and parses the captured stdout.  The external process is out
of scope; the pure parsing of the captured text is modelled here. -/

/-- A per-file change parsed from one `--numstat` line. -/
structure FileChange where
  filePath : Str
  additions : Int
  deletions : Int
  deriving DecidableEq

/-- A parsed commit.  `committedAt` is the epoch-millisecond value of
the JS `Date` (`new Date(timestamp * 1000)`); a timestamp line that
does not parse yields an invalid date, modelled as 0 (no claim depends
on the value stored for such blocks). -/
structure GitCommit where
  sha : Str
  authorEmail : Str
  authorName : Str
  committedAt : Int
  message : Str
  additions : Int
  deletions : Int
  filesChanged : Nat
  isMerge : Bool
  branch : Str
  fileChanges : List FileChange
  deriving DecidableEq

/-- The sentinel line closing the message part of a commit block. -/
def msgEndMarker : Str := "COMMIT_MSG_END".data

/-- The separator the log is split on (`split("COMMIT_START\n")`). -/
def commitStartMarker : Str := "COMMIT_START\n".data

/-- One iteration of the numstat loop: trim the line, skip it if empty,
and if it has at least three whitespace-separated fields produce a
`FileChange`; a `-` or otherwise non-numeric additions/deletions field
counts as 0 (`parts[0] === "-" ? 0 : parseInt(parts[0]) || 0`). -/
def parseStatLine (rawLine : Str) : Option FileChange :=
  let line := trimStr rawLine
  if line.isEmpty then none
  else
    let parts := splitWs line
    if 3 ≤ parts.length then
      some { filePath := List.intercalate [' '] (parts.drop 2)
             additions := if parts.getD 0 [] = ['-'] then 0 else jsParseIntOr0 (parts.getD 0 [])
             deletions := if parts.getD 1 [] = ['-'] then 0 else jsParseIntOr0 (parts.getD 1 []) }
    else none

/-- The lines after the `COMMIT_MSG_END` sentinel (the numstat lines);
empty when the sentinel is absent (`msgEndIndex === -1`). -/
def statLinesOf (lines : List Str) : List Str :=
  match lines.findIdx? (fun l => decide (l = msgEndMarker)) with
  | some i => lines.drop (i + 1)
  | none => []

/-- The parent hashes of a block:
`lines[4].trim().split(" ").filter(p => p)`. -/
def parentsOfLines (lines : List Str) : List Str :=
  (splitSep [' '] (trimStr (lines.getD 4 []))).filter (fun p => ¬ p.isEmpty)

/-- The commit record built from one block (the body of the block loop,
after the minimum-length guard has passed). -/
def commitOfBlock (branch : Str) (block : Str) : GitCommit :=
  let lines := splitSep ['\n'] block
  let fcs := (statLinesOf lines).filterMap parseStatLine
  { sha := trimStr (lines.getD 0 [])
    authorEmail := trimStr (lines.getD 1 [])
    authorName := trimStr (lines.getD 2 [])
    committedAt := (jsParseInt (trimStr (lines.getD 3 []))).getD 0 * 1000
    message := trimStr (lines.getD 5 [])
    additions := (fcs.map FileChange.additions).sum
    deletions := (fcs.map FileChange.deletions).sum
    filesChanged := fcs.length
    isMerge := decide (1 < (parentsOfLines lines).length)
    branch := branch
    fileChanges := fcs }

/-- Parse one block: blocks with fewer than six lines are skipped
(`if (lines.length < 6) continue`). -/
def parseBlock (branch : Str) (block : Str) : Option GitCommit :=
  if (splitSep ['\n'] block).length < 6 then none
  else some (commitOfBlock branch block)

/-- The pure core of `parseGitLog`: split the captured log text on
`COMMIT_START\n`, drop blocks that are blank after trimming
(`filter(block => block.trim())`), and parse each remaining block. -/
def parseGitLog (branch : Str) (logOutput : Str) : List GitCommit :=
  ((splitSep commitStartMarker logOutput).filter
    (fun b => !(trimStr b).isEmpty)).filterMap (parseBlock branch)

/-- The blocks of the log text that yield a commit record: non-blank
and at least six lines.  Every well-formed commit block (hash, email,
name, timestamp, parents and subject lines present) satisfies this. -/
def wellFormedBlock (b : Str) : Bool :=
  !(trimStr b).isEmpty && decide (6 ≤ (splitSep ['\n'] b).length)

/-! ### Aggregator (src/transforms.ts and the daily-stats module) -/

/-- An aggregated author record (`aggregateAuthors` output / the
`Author` interface).  Timestamps are epoch milliseconds. -/
structure Author where
  email : Str
  name : Str
  firstCommitAt : Int
  lastCommitAt : Int
  totalCommits : Nat
  deriving DecidableEq

/-- One row of the daily-stats aggregation. -/
structure DailyStat where
  date : Str
  repoName : Str
  authorEmail : Str
  commitsCount : Nat
  additions : Int
  deletions : Int
  filesChanged : Nat
  deriving DecidableEq

/-- The grouping key `` `${date}|${repoName}|${commit.authorEmail}` ``
used by `aggregateDailyStats`. -/
def dsKey (repoName : Str) (c : GitCommit) : Str :=
  isoDatePart c.committedAt ++ '|' :: repoName ++ '|' :: c.authorEmail

/-- The fresh map entry for the first commit of a group. -/
def freshStat (repoName : Str) (c : GitCommit) : DailyStat :=
  { date := isoDatePart c.committedAt
    repoName := repoName
    authorEmail := c.authorEmail
    commitsCount := 1
    additions := c.additions
    deletions := c.deletions
    filesChanged := c.filesChanged }

/-- Updating an existing map entry with a further commit of its group. -/
def bumpStat (s : DailyStat) (c : GitCommit) : DailyStat :=
  { s with
    commitsCount := s.commitsCount + 1
    additions := s.additions + c.additions
    deletions := s.deletions + c.deletions
    filesChanged := s.filesChanged + c.filesChanged }

/-- Insert-or-update in the key-ordered association list modelling the
JS `Map` (in-place update of an existing key, append of a new key). -/
def dsUpdate (repoName : Str) (c : GitCommit) (m : List (Str × DailyStat)) :
    List (Str × DailyStat) :=
  upsertBy Prod.fst (fun old _ => (old.1, bumpStat old.2 c)) m
    (dsKey repoName c, freshStat repoName c)

/-- `aggregateDailyStats`: fold the commits through the map and return
the values in insertion order (`Array.from(map.values())`). -/
def aggregateDailyStats (commits : List GitCommit) (repoName : Str) :
    List DailyStat :=
  (commits.foldl (fun m c => dsUpdate repoName c m) []).map Prod.snd

/-- The summary statistics record. -/
structure SummaryStats where
  totalCommits : Nat
  totalAdditions : Int
  totalDeletions : Int
  totalFilesChanged : Int
  mergeCommitsCount : Nat
  uniqueAuthorsCount : Nat
  dateRangeFrom : Str
  dateRangeTo : Str
  deriving DecidableEq

/-- `calculateSummaryStats`: totals by reduction, merge and distinct
author counts, and the date range taken from the last element
(`commits[commits.length - 1]`) and first element of the log-ordered
list, with `""` for an empty list. -/
def calculateSummaryStats (commits : List GitCommit) : SummaryStats :=
  { totalCommits := commits.length
    totalAdditions := commits.foldl (fun sum c => sum + c.additions) 0
    totalDeletions := commits.foldl (fun sum c => sum + c.deletions) 0
    totalFilesChanged := commits.foldl (fun sum c => sum + (c.filesChanged : Int)) 0
    mergeCommitsCount := (commits.filter (fun c => c.isMerge)).length
    uniqueAuthorsCount := (commits.map GitCommit.authorEmail).dedup.length
    dateRangeFrom :=
      match commits.getLast? with
      | some c => isoDatePart c.committedAt
      | none => []
    dateRangeTo :=
      match commits.head? with
      | some c => isoDatePart c.committedAt
      | none => [] }

/-! ### Upsert engine (src/database.ts) over the tables of db/schema.ts

Each table is modelled as the list of its rows in insertion order.  The
storage engine's `INSERT ... ON CONFLICT(key) DO UPDATE` (and
`INSERT OR IGNORE`) over a unique index is modelled by `upsertBy`: the
first row with the conflicting key is merged in place, a fresh key is
appended.  Timestamp columns hold the ISO-8601 text produced by
`toISOString()`, exactly as the source binds them. -/

/-- A parsed git tag (`GitTag` in src/git-parser.ts). -/
structure GitTag where
  tagName : Str
  sha : Str
  taggerName : Option Str
  taggerEmail : Option Str
  tagDate : Option Int
  message : Option Str
  isAnnotated : Bool
  deriving DecidableEq

/-- A row of the `commits` table (unique on `repo_name, sha`). -/
structure CommitRow where
  repoName : Str
  sha : Str
  authorEmail : Str
  authorName : Str
  committedAt : Str
  message : Str
  additions : Int
  deletions : Int
  filesChanged : Nat
  isMerge : Nat
  branch : Str
  deriving DecidableEq

/-- The unique key of `commits`. -/
def commitKey (r : CommitRow) : Str × Str := (r.repoName, r.sha)

/-- The bound parameters of the commit insert statement. -/
def commitRow (repoName : Str) (c : GitCommit) : CommitRow :=
  { repoName := repoName
    sha := c.sha
    authorEmail := c.authorEmail
    authorName := c.authorName
    committedAt := isoString c.committedAt
    message := c.message
    additions := c.additions
    deletions := c.deletions
    filesChanged := c.filesChanged
    isMerge := if c.isMerge then 1 else 0
    branch := c.branch }

/-- `insertCommits`: upsert every commit; on conflict every non-key
column is overwritten with the excluded (incoming) values, so the
conflicting row is replaced outright. -/
def insertCommits (table : List CommitRow) (repoName : Str)
    (commits : List GitCommit) : List CommitRow :=
  commits.foldl (fun t c => upsertBy commitKey (fun _ new => new) t (commitRow repoName c)) table

/-- A row of the `authors` table (unique on `email`). -/
structure AuthorRow where
  email : Str
  name : Str
  firstCommitAt : Str
  lastCommitAt : Str
  totalCommits : Nat
  deriving DecidableEq

/-- SQLite `MIN` over two text values: lexicographic (BINARY) order.
On the fixed-format ISO-8601 strings stored here this coincides with
chronological order. -/
def sqlMinText (x y : Str) : Str := if strLe x y then x else y

/-- SQLite `MAX` over two text values. -/
def sqlMaxText (x y : Str) : Str := if strLe y x then x else y

/-- The bound parameters of the author upsert statement. -/
def authorRow (a : Author) : AuthorRow :=
  { email := a.email
    name := a.name
    firstCommitAt := isoString a.firstCommitAt
    lastCommitAt := isoString a.lastCommitAt
    totalCommits := a.totalCommits }

/-- The `ON CONFLICT(email) DO UPDATE` clause of `insertAuthors`:
latest name wins, `MIN`/`MAX` of the stored and excluded timestamps,
and `total_commits = total_commits + excluded.total_commits`. -/
def authorMerge (old new : AuthorRow) : AuthorRow :=
  { email := old.email
    name := new.name
    firstCommitAt := sqlMinText old.firstCommitAt new.firstCommitAt
    lastCommitAt := sqlMaxText old.lastCommitAt new.lastCommitAt
    totalCommits := old.totalCommits + new.totalCommits }

/-- One execution of the author upsert statement (the body of the
`insertAuthors` loop). -/
def upsertAuthor (table : List AuthorRow) (a : Author) : List AuthorRow :=
  upsertBy AuthorRow.email authorMerge table (authorRow a)

/-- `insertAuthors`: run the upsert statement for every author. -/
def insertAuthors (table : List AuthorRow) (authors : List Author) :
    List AuthorRow :=
  authors.foldl upsertAuthor table

/-- A row of the `file_changes` table (unique on
`repo_name, sha, file_path`). -/
structure FileChangeRow where
  repoName : Str
  sha : Str
  filePath : Str
  additions : Int
  deletions : Int
  deriving DecidableEq

/-- The unique key of `file_changes`. -/
def fcKey (r : FileChangeRow) : Str × Str × Str := (r.repoName, r.sha, r.filePath)

/-- The flattened file-change rows of a commit list, in commit order
(the `allFileChanges` array). -/
def flattenFileChanges (repoName : Str) (commits : List GitCommit) :
    List FileChangeRow :=
  commits.flatMap (fun c =>
    c.fileChanges.map (fun fc =>
      { repoName := repoName
        sha := c.sha
        filePath := fc.filePath
        additions := fc.additions
        deletions := fc.deletions }))

/-- `insertFileChanges`: `INSERT OR IGNORE` every flattened row — a
conflicting row is left untouched.  The source processes the flattened
array in batches of 1000 purely for progress reporting; the statement
executions happen in exactly this order. -/
def insertFileChanges (table : List FileChangeRow) (repoName : Str)
    (commits : List GitCommit) : List FileChangeRow :=
  (flattenFileChanges repoName commits).foldl
    (fun t r => upsertBy fcKey (fun old _ => old) t r) table

/-- A row of the `tags` table (unique on `repo_name, tag_name`). -/
structure TagRow where
  repoName : Str
  tagName : Str
  sha : Str
  taggerName : Option Str
  taggerEmail : Option Str
  tagDate : Option Str
  message : Option Str
  isAnnotated : Nat
  deriving DecidableEq

/-- The unique key of `tags`. -/
def tagKey (r : TagRow) : Str × Str := (r.repoName, r.tagName)

/-- The bound parameters of the tag upsert statement
(`tag.tagDate?.toISOString() || null`). -/
def tagRow (repoName : Str) (t : GitTag) : TagRow :=
  { repoName := repoName
    tagName := t.tagName
    sha := t.sha
    taggerName := t.taggerName
    taggerEmail := t.taggerEmail
    tagDate := t.tagDate.map isoString
    message := t.message
    isAnnotated := if t.isAnnotated then 1 else 0 }

/-- `insertTags`: upsert every tag; on conflict every non-key column is
overwritten with the excluded values. -/
def insertTags (table : List TagRow) (repoName : Str) (tags : List GitTag) :
    List TagRow :=
  tags.foldl (fun t tg => upsertBy tagKey (fun _ new => new) t (tagRow repoName tg)) table

/-- A row of the `repos` table (unique on `name`). -/
structure RepoRow where
  name : Str
  language : Option Str
  isArchived : Nat
  lastCommitAt : Option Str
  totalCommits : Nat
  deriving DecidableEq

/-- The `ON CONFLICT(name) DO UPDATE` clause of the repo upsert:
language, last-commit timestamp and total count are overwritten;
`is_archived` is not in the update list and keeps its stored value. -/
def repoMerge (old new : RepoRow) : RepoRow :=
  { name := old.name
    language := new.language
    isArchived := old.isArchived
    lastCommitAt := new.lastCommitAt
    totalCommits := new.totalCommits }

/-- `upsertRepositoryMetadata`: one upsert with
`lastCommitAt = commits[0]?.committedAt.toISOString()` (NULL when the
commit list is empty) and `total_commits = commits.length`. -/
def upsertRepositoryMetadata (table : List RepoRow) (repoName : Str)
    (language : Option Str) (commits : List GitCommit) : List RepoRow :=
  upsertBy RepoRow.name repoMerge table
    { name := repoName
      language := language
      isArchived := 0
      lastCommitAt := commits.head?.map (fun c => isoString c.committedAt)
      totalCommits := commits.length }

/-- The whole relational store. -/
structure Store where
  commits : List CommitRow
  authors : List AuthorRow
  fileChanges : List FileChangeRow
  tags : List TagRow
  repos : List RepoRow
  deriving DecidableEq

/-- The store with every table empty. -/
def emptyStore : Store := ⟨[], [], [], [], []⟩

/-- One ETL load (the body of the transaction in main.ts): insert
commits, authors, file changes and tags, then upsert the repository
metadata.  Each operation touches exactly one table. -/
def runPipeline (st : Store) (repoName : Str) (commits : List GitCommit)
    (authors : List Author) (tags : List GitTag) (language : Option Str) :
    Store :=
  { commits := insertCommits st.commits repoName commits
    authors := insertAuthors st.authors authors
    fileChanges := insertFileChanges st.fileChanges repoName commits
    tags := insertTags st.tags repoName tags
    repos := upsertRepositoryMetadata st.repos repoName language commits }

/-! ### Transaction coordinator (src/transactions.ts)

The SQLite connection is modelled as the current store plus the
snapshot taken by an open transaction; `BEGIN`/`COMMIT`/`ROLLBACK` are
`db.exec` calls against that connection.  An operation is a function
from the visible store to either a result and an updated store or a
raised error. -/

/-- A database connection: current visible state, plus the snapshot an
open transaction would roll back to (nesting is not supported). -/
structure TxnDB (σ : Type) where
  cur : σ
  snap : Option σ
  deriving DecidableEq

/-- `BEGIN TRANSACTION`. -/
def beginTransaction {σ : Type} (db : TxnDB σ) : TxnDB σ :=
  { db with snap := some db.cur }

/-- `COMMIT`: the writes performed since `BEGIN` become permanent. -/
def commitTransaction {σ : Type} (db : TxnDB σ) : TxnDB σ :=
  { db with snap := none }

/-- `ROLLBACK`: restore the snapshot taken at `BEGIN`. -/
def rollbackTransaction {σ : Type} (db : TxnDB σ) : TxnDB σ :=
  { cur := db.snap.getD db.cur, snap := none }

/-- `withTransaction(db, fn)`: begin, run the operation, commit on
normal return and return its result; on a raised error roll back and
re-raise it. -/
def withTransaction {σ ε α : Type} (db : TxnDB σ)
    (fn : σ → Except ε (α × σ)) : Except ε α × TxnDB σ :=
  let db0 := beginTransaction db
  match fn db0.cur with
  | .ok (r, st) => (.ok r, commitTransaction { db0 with cur := st })
  | .error e => (.error e, rollbackTransaction db0)

/-! ## Sample data used by witnesses -/

/-- A concrete commit: 3 additions, 1 deletion, 1 file, epoch instant 0
(UTC date 1970-01-01). -/
def wAlice1 : GitCommit :=
  { sha := "a000001".data
    authorEmail := "a@x.com".data
    authorName := "Alice".data
    committedAt := 0
    message := "first".data
    additions := 3
    deletions := 1
    filesChanged := 1
    isMerge := false
    branch := "main".data
    fileChanges := [⟨"f.ts".data, 3, 1⟩] }

/-- A concrete commit by the same author one hour later on the same UTC
date: 4 additions, 2 deletions, 2 files. -/
def wAlice2 : GitCommit :=
  { sha := "a000002".data
    authorEmail := "a@x.com".data
    authorName := "Alice".data
    committedAt := 3600000
    message := "second".data
    additions := 4
    deletions := 2
    filesChanged := 2
    isMerge := false
    branch := "main".data
    fileChanges := [⟨"f.ts".data, 4, 0⟩, ⟨"g.ts".data, 0, 2⟩] }

/-- A concrete commit by another author on the next UTC date. -/
def wBob : GitCommit :=
  { sha := "b000001".data
    authorEmail := "b@y.org".data
    authorName := "Bob".data
    committedAt := 86400000
    message := "third".data
    additions := 5
    deletions := 0
    filesChanged := 1
    isMerge := false
    branch := "main".data
    fileChanges := [⟨"h.ts".data, 5, 0⟩] }

/-! ## C2 — transaction coordinator -/

/-- C2: for every operation and store state, `withTransaction` begins a
transaction, commits and returns the result when the operation returns
normally, and on a raised error rolls the connection back to the state
it had before the transaction (so no write of the failed operation is
observable) and re-raises the original error. -/
theorem withTransaction_commit_or_rollback {σ ε α : Type} (db : TxnDB σ)
    (fn : σ → Except ε (α × σ)) :
    (∀ (r : α) (st : σ), fn db.cur = .ok (r, st) →
      withTransaction db fn = (.ok r, ⟨st, none⟩)) ∧
    (∀ e : ε, fn db.cur = .error e →
      withTransaction db fn = (.error e, ⟨db.cur, none⟩)) := by
  constructor
  · intro r st h
    simp [withTransaction, beginTransaction, commitTransaction, h]
  · intro e h
    simp [withTransaction, beginTransaction, rollbackTransaction, h]

/-- Witness for C2 at concrete inputs: a succeeding operation commits
its writes and returns its result; a failing operation leaves the
store at its pre-transaction value and re-raises the error. -/
theorem withTransaction_commit_or_rollback_witness :
    withTransaction (⟨3, none⟩ : TxnDB Nat)
      (fun st => (.ok (7, st + 2) : Except Nat (Nat × Nat))) = (.ok 7, ⟨5, none⟩) ∧
    withTransaction (⟨3, none⟩ : TxnDB Nat)
      (fun _ => (.error 9 : Except Nat (Nat × Nat))) = (.error 9, ⟨3, none⟩) :=
  ⟨(withTransaction_commit_or_rollback ⟨3, none⟩ _).1 7 5 rfl,
   (withTransaction_commit_or_rollback ⟨3, none⟩ _).2 9 rfl⟩

/-! ## C9 — summary-statistics date range -/

/-- C9: for every non-empty commit list the summary date range runs
from the UTC calendar date of the last element to the UTC calendar date
of the first element; the empty commit list yields empty-string
bounds. -/
theorem calculateSummaryStats_dateRange (cs : List GitCommit) :
    (cs = [] → (calculateSummaryStats cs).dateRangeFrom = [] ∧
      (calculateSummaryStats cs).dateRangeTo = []) ∧
    (∀ h : cs ≠ [],
      (calculateSummaryStats cs).dateRangeFrom =
        isoDatePart (cs.getLast h).committedAt ∧
      (calculateSummaryStats cs).dateRangeTo =
        isoDatePart (cs.head h).committedAt) := by
  constructor
  · rintro rfl
    exact ⟨rfl, rfl⟩
  · intro h
    constructor
    · simp [calculateSummaryStats, List.getLast?_eq_getLast cs h]
    · simp [calculateSummaryStats, List.head?_eq_head h]

/-- Witness for C9: on a concrete most-recent-first two-element list
the range runs from the older (last) commit's date 1970-01-01 to the
newer (first) commit's date 1970-01-02. -/
theorem calculateSummaryStats_dateRange_witness :
    (calculateSummaryStats [wBob, wAlice1]).dateRangeFrom = "1970-01-01".data ∧
    (calculateSummaryStats [wBob, wAlice1]).dateRangeTo = "1970-01-02".data := by
  have h := (calculateSummaryStats_dateRange [wBob, wAlice1]).2 (by decide)
  exact ⟨h.1.trans (by decide), h.2.trans (by decide)⟩

/-! ## C4 — block exclusion rules -/

/-- C4 counterexample: a block with six lines but no `COMMIT_MSG_END`
sentinel line is not excluded — `parseGitLog` emits a commit record for
it, contradicting the claim that such blocks produce no record. -/
theorem parseGitLog_missing_sentinel_not_excluded :
    (¬ msgEndMarker ∈
      splitSep ['\n'] "abc1234\na@x.com\nAuthor\n1000\n\nhello".data) ∧
    (parseGitLog "main".data
      "COMMIT_START\nabc1234\na@x.com\nAuthor\n1000\n\nhello".data).length = 1 := by
  decide

/-- C4 (amended): a block with fewer than six lines is excluded with no
record emitted; a block with at least six lines whose `COMMIT_MSG_END`
sentinel is missing is NOT excluded — it still yields a commit record,
with zero additions, deletions and files-changed and no file-change
records. -/
theorem parseBlock_short_excluded_missing_sentinel_kept (branch b : Str) :
    ((splitSep ['\n'] b).length < 6 → parseBlock branch b = none) ∧
    (6 ≤ (splitSep ['\n'] b).length → ¬ msgEndMarker ∈ splitSep ['\n'] b →
      parseBlock branch b = some (commitOfBlock branch b) ∧
      (commitOfBlock branch b).additions = 0 ∧
      (commitOfBlock branch b).deletions = 0 ∧
      (commitOfBlock branch b).filesChanged = 0 ∧
      (commitOfBlock branch b).fileChanges = []) := by
  constructor
  · intro h
    simp [parseBlock, h]
  · intro hlen hmem
    have hidx : (splitSep ['\n'] b).findIdx? (fun l => decide (l = msgEndMarker)) = none := by
      rw [List.findIdx?_eq_none_iff]
      intro l hl
      simp only [decide_eq_false_iff_not]
      intro hcontra
      exact hmem (hcontra ▸ hl)
    have hstat : statLinesOf (splitSep ['\n'] b) = [] := by
      simp [statLinesOf, hidx]
    refine ⟨by simp [parseBlock]; omega, ?_, ?_, ?_, ?_⟩ <;>
      simp [commitOfBlock, hstat]

/-- Witness for C4 (amended) at concrete blocks: a two-line block is
dropped; a six-line block without the sentinel yields a record with no
file changes. -/
theorem parseBlock_short_excluded_missing_sentinel_kept_witness :
    parseBlock "main".data "x\ny".data = none ∧
    parseBlock "main".data "abc\na@x.com\nA\n1\n\nmsg".data =
      some (commitOfBlock "main".data "abc\na@x.com\nA\n1\n\nmsg".data) ∧
    (commitOfBlock "main".data "abc\na@x.com\nA\n1\n\nmsg".data).fileChanges = [] := by
  have h1 := (parseBlock_short_excluded_missing_sentinel_kept "main".data "x\ny".data).1
    (by decide)
  have h2 := (parseBlock_short_excluded_missing_sentinel_kept "main".data
    "abc\na@x.com\nA\n1\n\nmsg".data).2 (by decide) (by decide)
  exact ⟨h1, h2.1, h2.2.2.2.2⟩

/-! ## C8 — non-numeric numstat fields -/

/-- C8: a stat line with at least three fields whose additions (or
deletions) field is `-` or otherwise non-numeric still yields exactly
one `FileChange`, with that field contributing 0; and at block level
the commit's file-change list is exactly the per-line results, with
`filesChanged` counting them and `additions`/`deletions` summing their
per-line values (so the non-numeric field adds 0 to the totals while
the line still counts as one changed file). -/
theorem parseStatLine_nonNumeric_counts_zero (rawLine p0 p1 p2 : Str)
    (rest : List Str) (hp : splitWs (trimStr rawLine) = p0 :: p1 :: p2 :: rest) :
    ((p0 = ['-'] ∨ jsParseInt p0 = none) →
      parseStatLine rawLine = some
        { filePath := List.intercalate [' '] (p2 :: rest)
          additions := 0
          deletions := if p1 = ['-'] then 0 else jsParseIntOr0 p1 }) ∧
    ((p1 = ['-'] ∨ jsParseInt p1 = none) →
      parseStatLine rawLine = some
        { filePath := List.intercalate [' '] (p2 :: rest)
          additions := if p0 = ['-'] then 0 else jsParseIntOr0 p0
          deletions := 0 }) ∧
    (∀ branch block : Str,
      (commitOfBlock branch block).fileChanges =
        (statLinesOf (splitSep ['\n'] block)).filterMap parseStatLine ∧
      (commitOfBlock branch block).filesChanged =
        (commitOfBlock branch block).fileChanges.length ∧
      (commitOfBlock branch block).additions =
        ((commitOfBlock branch block).fileChanges.map FileChange.additions).sum ∧
      (commitOfBlock branch block).deletions =
        ((commitOfBlock branch block).fileChanges.map FileChange.deletions).sum) := by
  have hne : (trimStr rawLine).isEmpty = false := by
    cases hemp : (trimStr rawLine).isEmpty
    · rfl
    · exfalso
      rw [List.isEmpty_iff] at hemp
      rw [hemp] at hp
      simp [splitWs, splitPred] at hp
  have hlen3 : 3 ≤ (p0 :: p1 :: p2 :: rest).length := by
    simp
  refine ⟨?_, ?_, fun branch block => ⟨rfl, rfl, rfl, rfl⟩⟩
  · intro h0
    have ha : (if p0 = ['-'] then (0 : Int) else jsParseIntOr0 p0) = 0 := by
      rcases h0 with h | h
      · simp [h]
      · by_cases hd : p0 = ['-'] <;> simp [hd, jsParseIntOr0, h]
    simp [parseStatLine, hne, hp, hlen3, ha]
  · intro h1
    have hd : (if p1 = ['-'] then (0 : Int) else jsParseIntOr0 p1) = 0 := by
      rcases h1 with h | h
      · simp [h]
      · by_cases hd : p1 = ['-'] <;> simp [hd, jsParseIntOr0, h]
    simp [parseStatLine, hne, hp, hlen3, hd]

/-- Witness for C8 at the binary-file marker line `-	-	img.png`:
one `FileChange` is produced, with 0 additions and 0 deletions. -/
theorem parseStatLine_nonNumeric_counts_zero_witness :
    parseStatLine "-\t-\timg.png".data =
      some { filePath := "img.png".data, additions := 0, deletions := 0 } := by
  have h := (parseStatLine_nonNumeric_counts_zero "-\t-\timg.png".data
    ['-'] ['-'] "img.png".data [] (by decide)).1 (Or.inl rfl)
  exact h.trans (by decide)

/-! ## C3 — well-formed blocks parse in order with the merge flag -/

/-- The auxiliary shape fact behind C3: filtering out blank blocks and
then dropping the under-six-line blocks is the same as mapping the
block parser over the `wellFormedBlock` blocks. -/
theorem filterMap_parseBlock_eq (branch : Str) (bs : List Str) :
    (bs.filter (fun b => !(trimStr b).isEmpty)).filterMap (parseBlock branch) =
      (bs.filter wellFormedBlock).map (commitOfBlock branch) := by
  induction bs with
  | nil => rfl
  | cons b rest ih =>
    cases h1 : (trimStr b).isEmpty with
    | true =>
      have hw : wellFormedBlock b = false := by
        simp [wellFormedBlock, h1]
      simp only [List.filter_cons, h1, hw, Bool.not_true, if_false, Bool.false_eq_true]
      exact ih
    | false =>
      by_cases h2 : (splitSep ['\n'] b).length < 6
      · have hw : wellFormedBlock b = false := by
          simp [wellFormedBlock, h1]
          omega
        have hpb : parseBlock branch b = none := by
          simp [parseBlock, h2]
        simp only [List.filter_cons, h1, hw, Bool.not_false, if_true,
          List.filterMap_cons, hpb, Bool.false_eq_true, if_false]
        exact ih
      · have hw : wellFormedBlock b = true := by
          simp [wellFormedBlock, h1]
          omega
        have hpb : parseBlock branch b = some (commitOfBlock branch b) := by
          simp [parseBlock, h2]
        simp only [List.filter_cons, h1, hw, Bool.not_false, if_true,
          List.filterMap_cons, hpb, List.map_cons]
        exact congrArg (commitOfBlock branch b :: ·) ih

/-- C3: `parseGitLog` returns exactly one commit record per
`wellFormedBlock` block of the log text (every well-formed commit block
is non-blank with at least six lines, hence satisfies
`wellFormedBlock`), in block order; and a record's merge flag is true
exactly when its block's parent-hash list has more than one entry. -/
theorem parseGitLog_records_per_block (branch logOutput : Str) :
    parseGitLog branch logOutput =
      ((splitSep commitStartMarker logOutput).filter wellFormedBlock).map
        (commitOfBlock branch) ∧
    (∀ b : Str, (commitOfBlock branch b).isMerge = true ↔
      1 < (parentsOfLines (splitSep ['\n'] b)).length) :=
  ⟨filterMap_parseBlock_eq branch _, fun b => by simp [commitOfBlock]⟩

/-! ## Generic facts about keyed upserts -/

/-- An ignore-merge upsert (`INSERT OR IGNORE`) leaves the table alone
on a key conflict and appends otherwise. -/
theorem upsertBy_keep {ρ κ : Type} [DecidableEq κ] (key : ρ → κ)
    (T : List ρ) (new : ρ) :
    upsertBy key (fun old _ => old) T new =
      if key new ∈ T.map key then T else T ++ [new] := by
  induction T with
  | nil => simp [upsertBy]
  | cons a rest ih =>
    by_cases h : key a = key new
    · simp [upsertBy, h]
    · rw [List.map_cons]
      have hne : ¬ key new = key a := fun hc => h hc.symm
      simp only [upsertBy, h, if_false, List.mem_cons, hne, false_or]
      rw [ih]
      by_cases hm : key new ∈ rest.map key
      · simp [hm]
      · simp [hm]

/-- Upserting a fresh key appends the new row. -/
theorem upsertBy_absent {ρ κ : Type} [DecidableEq κ] (key : ρ → κ)
    (merge : ρ → ρ → ρ) (T : List ρ) (new : ρ)
    (h : ¬ key new ∈ T.map key) :
    upsertBy key merge T new = T ++ [new] := by
  induction T with
  | nil => simp [upsertBy]
  | cons a rest ih =>
    rw [List.map_cons, List.mem_cons] at h
    push_neg at h
    have hne : ¬ key a = key new := fun hc => h.1 hc.symm
    simp [upsertBy, hne, ih h.2]

/-- On a table with pairwise-distinct keys, upserting a conflicting key
is a pointwise in-place merge. -/
theorem upsertBy_present_map {ρ κ : Type} [DecidableEq κ] (key : ρ → κ)
    (merge : ρ → ρ → ρ) (T : List ρ) (new : ρ)
    (hnd : (T.map key).Nodup) (hp : key new ∈ T.map key) :
    upsertBy key merge T new =
      T.map (fun r => if key r = key new then merge r new else r) := by
  induction T with
  | nil => simp at hp
  | cons a rest ih =>
    rw [List.map_cons] at hnd
    by_cases h : key a = key new
    · have hrest : ∀ r ∈ rest, key r ≠ key new := by
        intro r hr hc
        have : key a ∈ rest.map key := by
          rw [h, ← hc]
          exact List.mem_map_of_mem key hr
        exact (List.nodup_cons.mp hnd).1 this
      have hmap : rest.map (fun r => if key r = key new then merge r new else r) = rest := by
        rw [List.map_congr_left (g := id) (fun r hr => by simp [hrest r hr])]
        exact List.map_id rest
      simp [upsertBy, h, hmap]
    · have hp2 : key new ∈ rest.map key := by
        rcases List.mem_cons.mp hp with hc | hm
        · exact absurd hc.symm h
        · exact hm
      simp [upsertBy, h, ih (List.nodup_cons.mp hnd).2 hp2]

/-- The key list after an upsert whose merge preserves the key. -/
theorem upsertBy_map_key {ρ κ : Type} [DecidableEq κ] (key : ρ → κ)
    (merge : ρ → ρ → ρ) (T : List ρ) (new : ρ)
    (hk : ∀ r : ρ, key r = key new → key (merge r new) = key new) :
    (upsertBy key merge T new).map key =
      if key new ∈ T.map key then T.map key else T.map key ++ [key new] := by
  induction T with
  | nil => simp [upsertBy]
  | cons a rest ih =>
    by_cases h : key a = key new
    · simp [upsertBy, h, hk a h]
    · have hne : ¬ key new = key a := fun hc => h hc.symm
      simp only [upsertBy, h, if_false, List.map_cons, List.mem_cons, hne, false_or]
      rw [ih]
      by_cases hm : key new ∈ rest.map key
      · simp [hm]
      · simp [hm]

/-- A key-preserving upsert against a present key keeps the row count. -/
theorem upsertBy_length_present {ρ κ : Type} [DecidableEq κ] (key : ρ → κ)
    (merge : ρ → ρ → ρ) (T : List ρ) (new : ρ)
    (hk : ∀ r : ρ, key r = key new → key (merge r new) = key new)
    (hp : key new ∈ T.map key) :
    (upsertBy key merge T new).length = T.length := by
  have h := upsertBy_map_key key merge T new hk
  rw [if_pos hp] at h
  have := congrArg List.length h
  simpa using this

/-- A key-preserving upsert keeps every existing key present. -/
theorem upsertBy_mem_key {ρ κ : Type} [DecidableEq κ] (key : ρ → κ)
    (merge : ρ → ρ → ρ) (T : List ρ) (new : ρ)
    (hk : ∀ r : ρ, key r = key new → key (merge r new) = key new)
    (k : κ) (hm : k ∈ T.map key) :
    k ∈ (upsertBy key merge T new).map key := by
  rw [upsertBy_map_key key merge T new hk]
  by_cases hp : key new ∈ T.map key
  · rwa [if_pos hp]
  · rw [if_neg hp]
    exact List.mem_append_left _ hm

/-- After a key-preserving upsert the upserted key is present. -/
theorem upsertBy_self_mem_key {ρ κ : Type} [DecidableEq κ] (key : ρ → κ)
    (merge : ρ → ρ → ρ) (T : List ρ) (new : ρ)
    (hk : ∀ r : ρ, key r = key new → key (merge r new) = key new) :
    key new ∈ (upsertBy key merge T new).map key := by
  rw [upsertBy_map_key key merge T new hk]
  by_cases hp : key new ∈ T.map key
  · rwa [if_pos hp]
  · rw [if_neg hp]
    exact List.mem_append_right _ (List.mem_singleton.mpr rfl)

/-- A key-preserving upsert preserves key distinctness. -/
theorem upsertBy_keys_nodup {ρ κ : Type} [DecidableEq κ] (key : ρ → κ)
    (merge : ρ → ρ → ρ) (T : List ρ) (new : ρ)
    (hk : ∀ r : ρ, key r = key new → key (merge r new) = key new)
    (hnd : (T.map key).Nodup) :
    ((upsertBy key merge T new).map key).Nodup := by
  rw [upsertBy_map_key key merge T new hk]
  by_cases hp : key new ∈ T.map key
  · rwa [if_pos hp]
  · rw [if_neg hp]
    simp [List.nodup_append, hnd, hp]

/-- The row a keyed lookup sees after upserting its key is the merge of
the previous row with the incoming one. -/
theorem rowAt_upsertBy_self {ρ κ : Type} [DecidableEq κ] (key : ρ → κ)
    (merge : ρ → ρ → ρ) (T : List ρ) (new r : ρ)
    (hk : ∀ r' : ρ, key r' = key new → key (merge r' new) = key new)
    (h : rowAt key T (key new) = some r) :
    rowAt key (upsertBy key merge T new) (key new) = some (merge r new) := by
  induction T with
  | nil => simp [rowAt] at h
  | cons a rest ih =>
    by_cases ha : key a = key new
    · rw [rowAt, List.find?_cons_of_pos _ (by simp [ha])] at h
      have har : a = r := Option.some.inj h
      rw [upsertBy, if_pos ha, rowAt,
        List.find?_cons_of_pos _ (by simp [hk a ha]), har]
    · rw [rowAt, List.find?_cons_of_neg _ (by simp [ha])] at h
      rw [upsertBy, if_neg ha, rowAt, List.find?_cons_of_neg _ (by simp [ha])]
      exact ih h

/-! ## C5 — file-change deduplication -/

/-- A whole history of `insertFileChanges` calls, starting from the
empty `file_changes` table. -/
def applyFileChangeCalls (calls : List (Str × List GitCommit)) :
    List FileChangeRow :=
  calls.foldl (fun t pr => insertFileChanges t pr.1 pr.2) []

/-- One `insertFileChanges` call preserves key distinctness. -/
theorem insertFileChanges_keys_nodup (T : List FileChangeRow) (repoName : Str)
    (commits : List GitCommit) (h : (T.map fcKey).Nodup) :
    ((insertFileChanges T repoName commits).map fcKey).Nodup := by
  unfold insertFileChanges
  generalize flattenFileChanges repoName commits = rows
  induction rows generalizing T with
  | nil => exact h
  | cons r rest ih =>
    simp only [List.foldl_cons]
    apply ih
    rw [upsertBy_keep]
    by_cases hm : fcKey r ∈ T.map fcKey
    · rwa [if_pos hm]
    · rw [if_neg hm]
      simp [List.nodup_append, h, hm]

/-- One `insertFileChanges` call never changes the row a key already
maps to: a conflicting incoming row is silently dropped. -/
theorem insertFileChanges_preserves_row (T : List FileChangeRow)
    (repoName : Str) (commits : List GitCommit) (k : Str × Str × Str)
    (row : FileChangeRow) (h : rowAt fcKey T k = some row) :
    rowAt fcKey (insertFileChanges T repoName commits) k = some row := by
  unfold insertFileChanges
  generalize flattenFileChanges repoName commits = rows
  induction rows generalizing T with
  | nil => exact h
  | cons r rest ih =>
    simp only [List.foldl_cons]
    apply ih
    rw [upsertBy_keep]
    by_cases hm : fcKey r ∈ T.map fcKey
    · rwa [if_pos hm]
    · rw [if_neg hm, rowAt, List.find?_append]
      rw [rowAt] at h
      rw [h]
      rfl

/-- C5: after any sequence of `insertFileChanges` calls on an initially
empty table, no two `file_changes` rows share a
`(repo name, sha, file path)` key — even when the input lists the same
file change twice — and an incoming duplicate never overwrites the
stored row: the row a key maps to before a call is exactly the row it
maps to after it. -/
theorem insertFileChanges_never_duplicates :
    (∀ calls : List (Str × List GitCommit),
      ((applyFileChangeCalls calls).map fcKey).Nodup) ∧
    (∀ (table : List FileChangeRow) (repoName : Str)
       (commits : List GitCommit) (k : Str × Str × Str) (row : FileChangeRow),
      rowAt fcKey table k = some row →
      rowAt fcKey (insertFileChanges table repoName commits) k = some row) := by
  constructor
  · intro calls
    have hgen : ∀ (cs : List (Str × List GitCommit)) (T : List FileChangeRow),
        (T.map fcKey).Nodup →
        ((cs.foldl (fun t pr => insertFileChanges t pr.1 pr.2) T).map fcKey).Nodup := by
      intro cs
      induction cs with
      | nil => exact fun T h => h
      | cons c rest ih =>
        exact fun T h => ih _ (insertFileChanges_keys_nodup T c.1 c.2 h)
    exact hgen calls [] (by simp)
  · exact insertFileChanges_preserves_row

/-- Witness for C5: a stored row `(r, s, f.ts) ↦ (1, 2)` survives an
insert of the same key with different values `(100, 200)` unchanged. -/
theorem insertFileChanges_never_duplicates_witness :
    rowAt fcKey
      (insertFileChanges [⟨"r".data, "s".data, "f.ts".data, 1, 2⟩] "r".data
        [{ wAlice1 with sha := "s".data, fileChanges := [⟨"f.ts".data, 100, 200⟩] }])
      ("r".data, "s".data, "f.ts".data) =
      some ⟨"r".data, "s".data, "f.ts".data, 1, 2⟩ :=
  insertFileChanges_never_duplicates.2 _ _ _ _ _ (by decide)

/-! ## C6 — author upsert merge semantics -/

/-- C6: upserting an author record onto an existing stored row with the
same email leaves a row whose first-commit timestamp is the `MIN` of
the stored and incoming values, last-commit timestamp the `MAX`,
commit count the stored count plus the incoming count, and name the
incoming name.  Timestamps are the ISO-8601 strings the source binds,
compared as SQLite compares text. -/
theorem upsertAuthor_merges_existing (table : List AuthorRow) (a : Author)
    (old : AuthorRow) (h : rowAt AuthorRow.email table a.email = some old) :
    rowAt AuthorRow.email (upsertAuthor table a) a.email =
      some { email := old.email
             name := a.name
             firstCommitAt := sqlMinText old.firstCommitAt (isoString a.firstCommitAt)
             lastCommitAt := sqlMaxText old.lastCommitAt (isoString a.lastCommitAt)
             totalCommits := old.totalCommits + a.totalCommits } :=
  rowAt_upsertBy_self AuthorRow.email authorMerge table (authorRow a) old
    (fun _ hr => hr) h

/-- Witness for C6: merging an incoming record (earlier first-seen,
later last-seen, 2 commits, new name) into a stored row (3 commits)
yields the incoming name, the earlier first-seen, the later last-seen,
and 5 total commits. -/
theorem upsertAuthor_merges_existing_witness :
    rowAt AuthorRow.email
      (upsertAuthor
        [⟨"a@x.com".data, "Old Name".data, isoString 86400000, isoString 86400000, 3⟩]
        ⟨"a@x.com".data, "New Name".data, 0, 172800000, 2⟩)
      "a@x.com".data =
      some ⟨"a@x.com".data, "New Name".data, isoString 0, isoString 172800000, 5⟩ := by
  have h := upsertAuthor_merges_existing
    [⟨"a@x.com".data, "Old Name".data, isoString 86400000, isoString 86400000, 3⟩]
    ⟨"a@x.com".data, "New Name".data, 0, 172800000, 2⟩
    ⟨"a@x.com".data, "Old Name".data, isoString 86400000, isoString 86400000, 3⟩
    (by decide)
  exact h.trans (by decide)

/-! ## Order facts about the text comparison -/

/-- `strLe` is reflexive. -/
theorem strLe_refl (x : Str) : strLe x x = true := by
  induction x with
  | nil => rfl
  | cons a as ih => simp [strLe, ih]

/-- `strLe` is total. -/
theorem strLe_total (x y : Str) : strLe x y = true ∨ strLe y x = true := by
  induction x generalizing y with
  | nil => exact Or.inl rfl
  | cons a as ih =>
    cases y with
    | nil => exact Or.inr rfl
    | cons b bs =>
      rcases Nat.lt_trichotomy a.toNat b.toNat with h | h | h
      · exact Or.inl (by simp [strLe, h])
      · have h1 : ¬ a.toNat < b.toNat := by omega
        have h2 : ¬ b.toNat < a.toNat := by omega
        rcases ih bs with hc | hc
        · exact Or.inl (by simp [strLe, h1, h2, hc])
        · exact Or.inr (by simp [strLe, h1, h2, hc])
      · exact Or.inr (by simp [strLe, h])

/-- Case analysis on `strLe x y = true` at a cons/cons pair. -/
theorem strLe_cons_elim {a b : Char} {as bs : Str}
    (h : strLe (a :: as) (b :: bs) = true) :
    a.toNat < b.toNat ∨
      (¬ a.toNat < b.toNat ∧ ¬ b.toNat < a.toNat ∧ strLe as bs = true) := by
  by_cases hab : a.toNat < b.toNat
  · exact Or.inl hab
  · by_cases hba : b.toNat < a.toNat
    · rw [strLe, if_neg hab, if_pos hba] at h
      exact absurd h (by simp)
    · rw [strLe, if_neg hab, if_neg hba] at h
      exact Or.inr ⟨hab, hba, h⟩

/-- `strLe` is transitive. -/
theorem strLe_trans (x y z : Str) (h1 : strLe x y = true)
    (h2 : strLe y z = true) : strLe x z = true := by
  induction x generalizing y z with
  | nil => rfl
  | cons a as ih =>
    cases y with
    | nil => simp [strLe] at h1
    | cons b bs =>
      cases z with
      | nil => simp [strLe] at h2
      | cons c cs =>
        rcases strLe_cons_elim h1 with hab | ⟨hab, hba, hrec1⟩ <;>
          rcases strLe_cons_elim h2 with hbc | ⟨hbc, hcb, hrec2⟩
        · have : a.toNat < c.toNat := by omega
          simp [strLe, this]
        · have : a.toNat < c.toNat := by omega
          simp [strLe, this]
        · have : a.toNat < c.toNat := by omega
          simp [strLe, this]
        · have hac : ¬ a.toNat < c.toNat := by omega
          have hca : ¬ c.toNat < a.toNat := by omega
          simp [strLe, hac, hca]
          exact ih bs cs hrec1 hrec2

/-- `MIN` collapses to the stored value when it is already ≤ the
incoming one. -/
theorem sqlMinText_of_le {x y : Str} (h : strLe x y = true) :
    sqlMinText x y = x := by
  rw [sqlMinText, if_pos h]

/-- `MAX` collapses to the stored value when the incoming one is ≤. -/
theorem sqlMaxText_of_ge {x y : Str} (h : strLe y x = true) :
    sqlMaxText x y = x := by
  rw [sqlMaxText, if_pos h]

/-! ## Folded upserts -/

/-- Folding upserts never drops a key. -/
theorem foldl_upsertBy_mem_key {ρ κ β : Type} [DecidableEq κ] (key : ρ → κ)
    (merge : ρ → ρ → ρ) (f : β → ρ)
    (hk : ∀ r n : ρ, key r = key n → key (merge r n) = key n)
    (xs : List β) (T : List ρ) (k : κ) (hm : k ∈ T.map key) :
    k ∈ (xs.foldl (fun t x => upsertBy key merge t (f x)) T).map key := by
  induction xs generalizing T with
  | nil => exact hm
  | cons x rest ih =>
    simp only [List.foldl_cons]
    exact ih _ (upsertBy_mem_key key merge T (f x) (fun r hr => hk r (f x) hr) k hm)

/-- After folding upserts, the key of every processed element is
present. -/
theorem foldl_upsertBy_self_mem {ρ κ β : Type} [DecidableEq κ] (key : ρ → κ)
    (merge : ρ → ρ → ρ) (f : β → ρ)
    (hk : ∀ r n : ρ, key r = key n → key (merge r n) = key n)
    (xs : List β) (T : List ρ) (x : β) (hx : x ∈ xs) :
    key (f x) ∈ (xs.foldl (fun t y => upsertBy key merge t (f y)) T).map key := by
  induction xs generalizing T with
  | nil => cases hx
  | cons y rest ih =>
    simp only [List.foldl_cons]
    rcases List.mem_cons.mp hx with rfl | hmem
    · exact foldl_upsertBy_mem_key key merge f hk rest _ _
        (upsertBy_self_mem_key key merge T (f x) (fun r hr => hk r (f x) hr))
    · exact ih _ hmem

/-- Folding upserts whose keys are all already present preserves the
row count. -/
theorem foldl_upsertBy_length {ρ κ β : Type} [DecidableEq κ] (key : ρ → κ)
    (merge : ρ → ρ → ρ) (f : β → ρ)
    (hk : ∀ r n : ρ, key r = key n → key (merge r n) = key n)
    (xs : List β) (T : List ρ)
    (hall : ∀ x ∈ xs, key (f x) ∈ T.map key) :
    (xs.foldl (fun t x => upsertBy key merge t (f x)) T).length = T.length := by
  induction xs generalizing T with
  | nil => rfl
  | cons x rest ih =>
    simp only [List.foldl_cons]
    have h1 : (upsertBy key merge T (f x)).length = T.length :=
      upsertBy_length_present key merge T (f x) (fun r hr => hk r (f x) hr)
        (hall x (List.mem_cons_self x rest))
    have h2 := ih (upsertBy key merge T (f x)) (fun y hy =>
      upsertBy_mem_key key merge T (f x) (fun r hr => hk r (f x) hr) _
        (hall y (List.mem_cons_of_mem x hy)))
    rw [h2, h1]

/-! ## The authors table across a replay -/

@[simp] theorem authorRow_email (a : Author) : (authorRow a).email = a.email := rfl

@[simp] theorem authorRow_name (a : Author) : (authorRow a).name = a.name := rfl

@[simp] theorem authorRow_first (a : Author) :
    (authorRow a).firstCommitAt = isoString a.firstCommitAt := rfl

@[simp] theorem authorRow_last (a : Author) :
    (authorRow a).lastCommitAt = isoString a.lastCommitAt := rfl

@[simp] theorem authorRow_total (a : Author) :
    (authorRow a).totalCommits = a.totalCommits := rfl

@[simp] theorem authorMerge_email (o n : AuthorRow) :
    (authorMerge o n).email = o.email := rfl

@[simp] theorem authorMerge_name (o n : AuthorRow) :
    (authorMerge o n).name = n.name := rfl

@[simp] theorem authorMerge_first (o n : AuthorRow) :
    (authorMerge o n).firstCommitAt = sqlMinText o.firstCommitAt n.firstCommitAt := rfl

@[simp] theorem authorMerge_last (o n : AuthorRow) :
    (authorMerge o n).lastCommitAt = sqlMaxText o.lastCommitAt n.lastCommitAt := rfl

@[simp] theorem authorMerge_total (o n : AuthorRow) :
    (authorMerge o n).totalCommits = o.totalCommits + n.totalCommits := rfl

/-- The last element of the author list carrying the given email. -/
def lastWith (as : List Author) (e : Str) : Option Author :=
  (as.filter (fun a => decide (a.email = e))).getLast?

/-- The summed incoming commit counts of the given email. -/
def sumTotals (as : List Author) (e : Str) : Nat :=
  ((as.filter (fun a => decide (a.email = e))).map Author.totalCommits).sum

theorem lastWith_append (done : List Author) (a : Author) (e : Str) :
    lastWith (done ++ [a]) e = if a.email = e then some a else lastWith done e := by
  unfold lastWith
  rw [List.filter_append]
  by_cases h : a.email = e
  · simp [h, List.getLast?_concat]
  · simp [h]

theorem sumTotals_append (done : List Author) (a : Author) (e : Str) :
    sumTotals (done ++ [a]) e =
      sumTotals done e + (if a.email = e then a.totalCommits else 0) := by
  unfold sumTotals
  rw [List.filter_append, List.map_append, List.sum_append]
  by_cases h : a.email = e
  · simp [h]
  · simp [h]

/-- Invariant tying the authors table built by replaying `done` onto an
initially empty table to the processed records: distinct emails, every
processed email present, and each row the fold of its email group —
its first-seen ≤ every matching incoming first-seen, its last-seen ≥
every matching incoming last-seen, its count the group's summed counts
and its name the last matching name. -/
def authorsInv (done : List Author) (T : List AuthorRow) : Prop :=
  (T.map AuthorRow.email).Nodup ∧
  (∀ a ∈ done, a.email ∈ T.map AuthorRow.email) ∧
  (∀ r ∈ T,
    (∀ a ∈ done, a.email = r.email →
      strLe r.firstCommitAt (isoString a.firstCommitAt) = true ∧
      strLe (isoString a.lastCommitAt) r.lastCommitAt = true) ∧
    r.totalCommits = sumTotals done r.email ∧
    (∃ a, lastWith done r.email = some a ∧ r.name = a.name))

theorem authorsInv_step (done : List Author) (T : List AuthorRow) (a : Author)
    (h : authorsInv done T) : authorsInv (done ++ [a]) (upsertAuthor T a) := by
  obtain ⟨hnd, hpres, hrows⟩ := h
  by_cases hm : a.email ∈ T.map AuthorRow.email
  · -- conflict: in-place merge
    have hmap : upsertAuthor T a = T.map (fun r =>
        if r.email = a.email then authorMerge r (authorRow a) else r) :=
      upsertBy_present_map AuthorRow.email authorMerge T (authorRow a) hnd hm
    rw [hmap]
    have hemail : ∀ r : AuthorRow,
        ((fun r => if r.email = a.email then authorMerge r (authorRow a) else r) r).email
          = r.email := by
      intro r
      by_cases hr : r.email = a.email
      · simp [hr]
      · simp [hr]
    have hkeys : (T.map (fun r =>
        if r.email = a.email then authorMerge r (authorRow a) else r)).map
          AuthorRow.email = T.map AuthorRow.email := by
      rw [List.map_map]
      exact List.map_congr_left (fun r _ => hemail r)
    refine ⟨by rw [hkeys]; exact hnd, ?_, ?_⟩
    · intro x hx
      rw [hkeys]
      rcases List.mem_append.mp hx with hxd | hxa
      · exact hpres x hxd
      · rw [List.mem_singleton.mp hxa]
        exact hm
    · intro r' hr'
      rcases List.mem_map.mp hr' with ⟨r, hrT, hgr⟩
      obtain ⟨hbounds, htot, hname⟩ := hrows r hrT
      by_cases hre : r.email = a.email
      · have hg : r' = authorMerge r (authorRow a) := by rw [← hgr]; simp [hre]
        rw [hg]
        refine ⟨?_, ?_, ?_⟩
        · intro a' ha' he'
          simp only [authorMerge_email, authorMerge_first, authorMerge_last,
            authorRow_first, authorRow_last] at he' ⊢
          rcases List.mem_append.mp ha' with had | haa
          · obtain ⟨hf, hl⟩ := hbounds a' had he'
            constructor
            · by_cases hx : strLe r.firstCommitAt (isoString a.firstCommitAt) = true
              · rw [sqlMinText_of_le hx]
                exact hf
              · have hvx : strLe (isoString a.firstCommitAt) r.firstCommitAt = true :=
                  (strLe_total _ _).resolve_left hx
                rw [sqlMinText, if_neg hx]
                exact strLe_trans _ _ _ hvx hf
            · by_cases hy : strLe (isoString a.lastCommitAt) r.lastCommitAt = true
              · rw [sqlMaxText_of_ge hy]
                exact hl
              · have hwy : strLe r.lastCommitAt (isoString a.lastCommitAt) = true :=
                  (strLe_total _ _).resolve_right hy
                rw [sqlMaxText, if_neg hy]
                exact strLe_trans _ _ _ hl hwy
          · rw [List.mem_singleton.mp haa]
            constructor
            · by_cases hx : strLe r.firstCommitAt (isoString a.firstCommitAt) = true
              · rw [sqlMinText_of_le hx]
                exact hx
              · rw [sqlMinText, if_neg hx]
                exact strLe_refl _
            · by_cases hy : strLe (isoString a.lastCommitAt) r.lastCommitAt = true
              · rw [sqlMaxText_of_ge hy]
                exact hy
              · rw [sqlMaxText, if_neg hy]
                exact strLe_refl _
        · simp only [authorMerge_email, authorMerge_total, authorRow_total]
          rw [sumTotals_append, if_pos hre.symm, htot]
        · simp only [authorMerge_email, authorMerge_name, authorRow_name]
          rw [lastWith_append, if_pos hre.symm]
          exact ⟨a, rfl, rfl⟩
      · have hg : r' = r := by rw [← hgr]; simp [hre]
        rw [hg]
        refine ⟨?_, ?_, ?_⟩
        · intro a' ha' he'
          rcases List.mem_append.mp ha' with had | haa
          · exact hbounds a' had he'
          · exfalso
            rw [List.mem_singleton.mp haa] at he'
            exact hre he'.symm
        · rw [sumTotals_append, if_neg (fun hc => hre hc.symm)]
          simpa using htot
        · rw [lastWith_append, if_neg (fun hc => hre hc.symm)]
          exact hname
  · -- fresh email: append
    have habs : upsertAuthor T a = T ++ [authorRow a] :=
      upsertBy_absent AuthorRow.email authorMerge T (authorRow a) hm
    rw [habs]
    have hnodone : ∀ a' ∈ done, ¬ a'.email = a.email :=
      fun a' ha' heq => hm (heq ▸ hpres a' ha')
    refine ⟨?_, ?_, ?_⟩
    · rw [List.map_append, List.nodup_append]
      refine ⟨hnd, by simp, ?_⟩
      intro x hx1 hx2
      simp only [List.map_cons, List.map_nil, List.mem_singleton, authorRow_email] at hx2
      exact hm (hx2 ▸ hx1)
    · intro x hx
      rw [List.map_append]
      rcases List.mem_append.mp hx with hxd | hxa
      · exact List.mem_append_left _ (hpres x hxd)
      · rw [List.mem_singleton.mp hxa]
        exact List.mem_append_right _ (by simp)
    · intro r' hr'
      rcases List.mem_append.mp hr' with hrT | hrnew
      · obtain ⟨hbounds, htot, hname⟩ := hrows r' hrT
        have hrne : ¬ r'.email = a.email :=
          fun hc => hm (hc ▸ List.mem_map_of_mem AuthorRow.email hrT)
        refine ⟨?_, ?_, ?_⟩
        · intro a' ha' he'
          rcases List.mem_append.mp ha' with had | haa
          · exact hbounds a' had he'
          · exfalso
            rw [List.mem_singleton.mp haa] at he'
            exact hrne he'.symm
        · rw [sumTotals_append, if_neg (fun hc => hrne hc.symm)]
          simpa using htot
        · rw [lastWith_append, if_neg (fun hc => hrne hc.symm)]
          exact hname
      · rw [List.mem_singleton.mp hrnew]
        refine ⟨?_, ?_, ?_⟩
        · intro a' ha' he'
          simp only [authorRow_email] at he'
          rcases List.mem_append.mp ha' with had | haa
          · exact absurd he' (hnodone a' had)
          · rw [List.mem_singleton.mp haa]
            simp only [authorRow_first, authorRow_last]
            exact ⟨strLe_refl _, strLe_refl _⟩
        · have hzero : sumTotals done a.email = 0 := by
            unfold sumTotals
            rw [List.filter_eq_nil_iff.mpr (fun a' ha' => by
              simp only [decide_eq_true_eq]
              exact hnodone a' ha')]
            rfl
          simp only [authorRow_email, authorRow_total]
          rw [sumTotals_append, hzero, if_pos rfl]
          omega
        · simp only [authorRow_email, authorRow_name]
          rw [lastWith_append, if_pos rfl]
          exact ⟨a, rfl, rfl⟩

theorem authorsInv_fold (as : List Author) (done : List Author)
    (T : List AuthorRow) (h : authorsInv done T) :
    authorsInv (done ++ as) (insertAuthors T as) := by
  induction as generalizing done T with
  | nil => simpa [insertAuthors] using h
  | cons a rest ih =>
    have h2 := ih (done ++ [a]) (upsertAuthor T a) (authorsInv_step done T a h)
    rw [List.append_assoc] at h2
    simpa [insertAuthors] using h2

theorem sumTotals_cons (a : Author) (rest : List Author) (e : Str) :
    sumTotals (a :: rest) e =
      (if a.email = e then a.totalCommits else 0) + sumTotals rest e := by
  unfold sumTotals
  rw [List.filter_cons]
  by_cases h : a.email = e
  · simp [h]
  · simp [h]

theorem lastWith_cons_neg {a : Author} {rest : List Author} {e : Str}
    (h : ¬ a.email = e) : lastWith (a :: rest) e = lastWith rest e := by
  unfold lastWith
  rw [List.filter_cons]
  simp [h]

theorem lastWith_cons_pos_none {a : Author} {rest : List Author} {e : Str}
    (h : a.email = e) (hn : lastWith rest e = none) :
    lastWith (a :: rest) e = some a := by
  unfold lastWith at hn ⊢
  rw [List.filter_cons, if_pos (by simp [h]),
    List.getLast?_eq_none_iff.mp hn]
  rfl

theorem lastWith_cons_pos_some {a b : Author} {rest : List Author} {e : Str}
    (h : a.email = e) (hs : lastWith rest e = some b) :
    lastWith (a :: rest) e = some b := by
  unfold lastWith at hs ⊢
  rw [List.filter_cons, if_pos (by simp [h])]
  cases hfil : rest.filter (fun a' => decide (a'.email = e)) with
  | nil => rw [hfil] at hs; simp at hs
  | cons x xs =>
    rw [hfil] at hs
    rw [List.getLast?_cons_cons]
    exact hs
/-- One author upsert against a table that already dominates the
incoming record: name becomes the incoming name and the count grows by
the incoming count, while the timestamps stay put. -/
def bumpAuthor (a : Author) (r : AuthorRow) : AuthorRow :=
  if r.email = a.email then
    { r with
      name := a.name
      totalCommits := r.totalCommits + a.totalCommits }
  else r

@[simp] theorem bumpAuthor_email (a : Author) (r : AuthorRow) :
    (bumpAuthor a r).email = r.email := by
  unfold bumpAuthor
  by_cases h : r.email = a.email
  · simp [h]
  · simp [h]

@[simp] theorem bumpAuthor_first (a : Author) (r : AuthorRow) :
    (bumpAuthor a r).firstCommitAt = r.firstCommitAt := by
  unfold bumpAuthor
  by_cases h : r.email = a.email
  · simp [h]
  · simp [h]

@[simp] theorem bumpAuthor_last (a : Author) (r : AuthorRow) :
    (bumpAuthor a r).lastCommitAt = r.lastCommitAt := by
  unfold bumpAuthor
  by_cases h : r.email = a.email
  · simp [h]
  · simp [h]

/-- The whole-group update a replay applies to one stored row: the last
matching record's name and the group's summed counts. -/
def applyGroup (as : List Author) (r : AuthorRow) : AuthorRow :=
  match lastWith as r.email with
  | some a =>
    { r with
      name := a.name
      totalCommits := r.totalCommits + sumTotals as r.email }
  | none => r

theorem applyGroup_some {as : List Author} {r : AuthorRow} {b : Author}
    (h : lastWith as r.email = some b) :
    applyGroup as r =
      { r with
        name := b.name
        totalCommits := r.totalCommits + sumTotals as r.email } := by
  unfold applyGroup
  rw [h]

theorem applyGroup_none {as : List Author} {r : AuthorRow}
    (h : lastWith as r.email = none) : applyGroup as r = r := by
  unfold applyGroup
  rw [h]

/-- Applying one record and then its group is applying the whole
group. -/
theorem applyGroup_cons (a : Author) (rest : List Author) (r : AuthorRow) :
    applyGroup rest (bumpAuthor a r) = applyGroup (a :: rest) r := by
  obtain ⟨e, n, f, l, t⟩ := r
  by_cases hre : e = a.email
  · have hb : bumpAuthor a ⟨e, n, f, l, t⟩ =
        ⟨e, a.name, f, l, t + a.totalCommits⟩ := by
      unfold bumpAuthor
      rw [if_pos hre]
    rw [hb]
    cases hLW : lastWith rest e with
    | none =>
      have hzero : sumTotals rest e = 0 := by
        unfold lastWith at hLW
        unfold sumTotals
        rw [List.getLast?_eq_none_iff.mp hLW]
        rfl
      have h2 : lastWith (a :: rest) e = some a :=
        lastWith_cons_pos_none hre.symm hLW
      have h3 : applyGroup rest (⟨e, a.name, f, l, t + a.totalCommits⟩ : AuthorRow) =
          ⟨e, a.name, f, l, t + a.totalCommits⟩ := applyGroup_none hLW
      have h4 : applyGroup (a :: rest) (⟨e, n, f, l, t⟩ : AuthorRow) =
          ⟨e, a.name, f, l, t + sumTotals (a :: rest) e⟩ := applyGroup_some h2
      rw [h3, h4, sumTotals_cons, if_pos hre.symm, hzero]
      simp
    | some b =>
      have h2 : lastWith (a :: rest) e = some b :=
        lastWith_cons_pos_some hre.symm hLW
      have h3 : applyGroup rest (⟨e, a.name, f, l, t + a.totalCommits⟩ : AuthorRow) =
          ⟨e, b.name, f, l, (t + a.totalCommits) + sumTotals rest e⟩ :=
        applyGroup_some hLW
      have h4 : applyGroup (a :: rest) (⟨e, n, f, l, t⟩ : AuthorRow) =
          ⟨e, b.name, f, l, t + sumTotals (a :: rest) e⟩ := applyGroup_some h2
      rw [h3, h4, sumTotals_cons, if_pos hre.symm]
      simp only [AuthorRow.mk.injEq, true_and]
      omega
  · have hb : bumpAuthor a ⟨e, n, f, l, t⟩ = ⟨e, n, f, l, t⟩ := by
      unfold bumpAuthor
      rw [if_neg hre]
    have hne : ¬ a.email = e := fun hc => hre hc.symm
    rw [hb]
    unfold applyGroup
    rw [lastWith_cons_neg hne, sumTotals_cons, if_neg hne]
    cases lastWith rest e with
    | none => rfl
    | some b => simp

/-- Replaying onto a table that already absorbs every record of the
list (all emails present, stored first-seen ≤ every matching incoming
first-seen, stored last-seen ≥ every matching incoming last-seen) only
rewrites names to the last matching name and adds the group's summed
counts. -/
theorem insertAuthors_absorbed (as : List Author) (T : List AuthorRow)
    (hnd : (T.map AuthorRow.email).Nodup)
    (hpres : ∀ a ∈ as, a.email ∈ T.map AuthorRow.email)
    (hbounds : ∀ r ∈ T, ∀ a ∈ as, a.email = r.email →
      strLe r.firstCommitAt (isoString a.firstCommitAt) = true ∧
      strLe (isoString a.lastCommitAt) r.lastCommitAt = true) :
    insertAuthors T as = T.map (applyGroup as) := by
  induction as generalizing T with
  | nil =>
    have hmap : T.map (applyGroup []) = T.map id :=
      List.map_congr_left (fun r _ => rfl)
    rw [hmap, List.map_id]
    simp [insertAuthors]
  | cons a rest ih =>
    have hm : a.email ∈ T.map AuthorRow.email :=
      hpres a (List.mem_cons_self a rest)
    have hT' : upsertAuthor T a = T.map (bumpAuthor a) := by
      unfold upsertAuthor
      rw [upsertBy_present_map AuthorRow.email authorMerge T (authorRow a) hnd hm]
      apply List.map_congr_left
      intro r hr
      unfold bumpAuthor
      simp only [authorRow_email]
      by_cases hre : r.email = a.email
      · obtain ⟨hf, hl⟩ := hbounds r hr a (List.mem_cons_self a rest) hre.symm
        rw [if_pos hre, if_pos hre]
        obtain ⟨e, n, f, l, t⟩ := r
        simp only [authorMerge, authorRow] at hf hl ⊢
        simp [sqlMinText_of_le hf, sqlMaxText_of_ge hl]
      · rw [if_neg hre, if_neg hre]
    have hstep : insertAuthors T (a :: rest) =
        insertAuthors (upsertAuthor T a) rest := by
      simp [insertAuthors]
    have hkeys : (T.map (bumpAuthor a)).map AuthorRow.email =
        T.map AuthorRow.email := by
      rw [List.map_map]
      exact List.map_congr_left (fun r _ => bumpAuthor_email a r)
    have hbounds' : ∀ r' ∈ T.map (bumpAuthor a), ∀ a' ∈ rest,
        a'.email = r'.email →
        strLe r'.firstCommitAt (isoString a'.firstCommitAt) = true ∧
        strLe (isoString a'.lastCommitAt) r'.lastCommitAt = true := by
      intro r' hr' a' ha' he'
      rcases List.mem_map.mp hr' with ⟨r, hrT, hgr⟩
      subst hgr
      rw [bumpAuthor_email] at he'
      rw [bumpAuthor_first, bumpAuthor_last]
      exact hbounds r hrT a' (List.mem_cons_of_mem a ha') he'
    rw [hstep, hT', ih (T.map (bumpAuthor a)) (by rw [hkeys]; exact hnd)
      (fun a' ha' => by rw [hkeys]; exact hpres a' (List.mem_cons_of_mem a ha'))
      hbounds', List.map_map]
    exact List.map_congr_left (fun r _ => applyGroup_cons a rest r)

/-- Replaying the same author list a second time doubles every row's
commit count and changes nothing else. -/
theorem insertAuthors_rerun_doubles (as : List Author) :
    insertAuthors (insertAuthors [] as) as =
      (insertAuthors [] as).map
        (fun r => { r with totalCommits := 2 * r.totalCommits }) := by
  have hinv := authorsInv_fold as [] [] ⟨by simp, by simp, by simp⟩
  rw [List.nil_append] at hinv
  obtain ⟨hnd, hpres, hrows⟩ := hinv
  rw [insertAuthors_absorbed as (insertAuthors [] as) hnd hpres
    (fun r hr a ha he => ((hrows r hr).1 a ha he))]
  apply List.map_congr_left
  intro r hr
  obtain ⟨-, htot, a, hlast, hname⟩ := hrows r hr
  rw [applyGroup_some hlast]
  obtain ⟨e, n, f, l, t⟩ := r
  simp only [] at htot hname
  simp only [AuthorRow.mk.injEq, true_and, and_true]
  refine ⟨hname.symm, ?_⟩
  rw [← htot]
  omega

/-! ## C1 — re-running the pipeline -/

/-- C1: running the full pipeline twice from an empty store on the same
parsed input leaves every table's row count unchanged by the second
run; the authors table is row-for-row identical except that every
`total_commits` value doubles. -/
theorem runPipeline_rerun_row_counts (repoName : Str) (cs : List GitCommit)
    (as : List Author) (ts : List GitTag) (lang : Option Str) :
    let st1 := runPipeline emptyStore repoName cs as ts lang
    let st2 := runPipeline st1 repoName cs as ts lang
    st2.commits.length = st1.commits.length ∧
    st2.authors.length = st1.authors.length ∧
    st2.fileChanges.length = st1.fileChanges.length ∧
    st2.tags.length = st1.tags.length ∧
    st2.repos.length = st1.repos.length ∧
    st2.authors = st1.authors.map
      (fun r => { r with totalCommits := 2 * r.totalCommits }) := by
  intro st1 st2
  have hauth : st2.authors = st1.authors.map
      (fun r => { r with totalCommits := 2 * r.totalCommits }) :=
    insertAuthors_rerun_doubles as
  refine ⟨?_, ?_, ?_, ?_, ?_, hauth⟩
  · -- commits
    show (insertCommits st1.commits repoName cs).length = st1.commits.length
    have hpres : ∀ c ∈ cs,
        commitKey (commitRow repoName c) ∈ st1.commits.map commitKey := by
      intro c hc
      show commitKey (commitRow repoName c) ∈
        (insertCommits [] repoName cs).map commitKey
      unfold insertCommits
      exact foldl_upsertBy_self_mem commitKey (fun _ new => new)
        (commitRow repoName) (fun _ _ _ => rfl) cs [] c hc
    unfold insertCommits
    exact foldl_upsertBy_length commitKey (fun _ new => new)
      (commitRow repoName) (fun _ _ _ => rfl) cs st1.commits hpres
  · -- authors row count
    rw [hauth, List.length_map]
  · -- file changes
    show (insertFileChanges st1.fileChanges repoName cs).length =
      st1.fileChanges.length
    have hpres : ∀ r ∈ flattenFileChanges repoName cs,
        fcKey r ∈ st1.fileChanges.map fcKey := by
      intro r hr
      show fcKey r ∈ (insertFileChanges [] repoName cs).map fcKey
      unfold insertFileChanges
      exact foldl_upsertBy_self_mem fcKey (fun old _ => old) id
        (fun _ _ h => h) (flattenFileChanges repoName cs) [] r hr
    unfold insertFileChanges
    exact foldl_upsertBy_length fcKey (fun old _ => old) id
      (fun _ _ h => h) (flattenFileChanges repoName cs) st1.fileChanges hpres
  · -- tags
    show (insertTags st1.tags repoName ts).length = st1.tags.length
    have hpres : ∀ t ∈ ts,
        tagKey (tagRow repoName t) ∈ st1.tags.map tagKey := by
      intro t ht
      show tagKey (tagRow repoName t) ∈ (insertTags [] repoName ts).map tagKey
      unfold insertTags
      exact foldl_upsertBy_self_mem tagKey (fun _ new => new)
        (tagRow repoName) (fun _ _ _ => rfl) ts [] t ht
    unfold insertTags
    exact foldl_upsertBy_length tagKey (fun _ new => new)
      (tagRow repoName) (fun _ _ _ => rfl) ts st1.tags hpres
  · -- repos
    show (upsertRepositoryMetadata st1.repos repoName lang cs).length =
      st1.repos.length
    have hre : st1.repos = [{ name := repoName
                              language := lang
                              isArchived := 0
                              lastCommitAt :=
                                cs.head?.map (fun c => isoString c.committedAt)
                              totalCommits := cs.length }] := rfl
    rw [hre]
    simp [upsertRepositoryMetadata, upsertBy]

/-! ## C7 — daily-stats grouping

The JS map key is `` `${date}|${repoName}|${email}` ``.  With the repo
name fixed across one call, the key determines the (date, email) pair
because the rendered date never contains `|` and the remainder is
recovered by cancelling the common repo-name prefix. -/

theorem digitChar_ne_pipe (n : Nat) : digitChar n ≠ '|' := by
  unfold digitChar
  split <;> decide

theorem natDigitsAux_ne_pipe (fuel : Nat) :
    ∀ (n : Nat), ∀ c ∈ natDigitsAux fuel n, c ≠ '|' := by
  induction fuel with
  | zero =>
    intro n c hc
    simp [natDigitsAux] at hc
  | succ fuel ih =>
    intro n c hc
    unfold natDigitsAux at hc
    by_cases h : n < 10
    · rw [if_pos h] at hc
      rw [List.mem_singleton.mp hc]
      exact digitChar_ne_pipe n
    · rw [if_neg h] at hc
      rcases List.mem_append.mp hc with h1 | h2
      · exact ih (n / 10) c h1
      · rw [List.mem_singleton.mp h2]
        exact digitChar_ne_pipe (n % 10)

theorem padDigits_ne_pipe (k n : Nat) : ∀ c ∈ padDigits k n, c ≠ '|' := by
  intro c hc
  unfold padDigits natDigits at hc
  rcases List.mem_append.mp hc with h1 | h2
  · rw [List.eq_of_mem_replicate h1]
    decide
  · exact natDigitsAux_ne_pipe (n + 1) n c h2

theorem pipe_not_mem_isoDatePart (ms : Int) : ¬ '|' ∈ isoDatePart ms := by
  intro hc
  simp only [isoDatePart] at hc
  rcases List.mem_append.mp hc with h12 | h3
  · rcases List.mem_append.mp h12 with h1 | h2
    · unfold isoYearChars at h1
      split_ifs at h1
      · exact padDigits_ne_pipe 4 _ '|' h1 rfl
      · rcases List.mem_cons.mp h1 with he | hm
        · exact absurd he (by decide)
        · exact padDigits_ne_pipe 6 _ '|' hm rfl
      · rcases List.mem_cons.mp h1 with he | hm
        · exact absurd he (by decide)
        · exact padDigits_ne_pipe 6 _ '|' hm rfl
    · rcases List.mem_cons.mp h2 with he | hm
      · exact absurd he (by decide)
      · exact padDigits_ne_pipe 2 _ '|' hm rfl
  · rcases List.mem_cons.mp h3 with he | hm
    · exact absurd he (by decide)
    · exact padDigits_ne_pipe 2 _ '|' hm rfl

/-- Splitting at the first `|` is unambiguous when neither prefix can
contain `|`. -/
theorem append_pipe_inj : ∀ (d1 d2 x y : Str), ¬ '|' ∈ d1 → ¬ '|' ∈ d2 →
    d1 ++ '|' :: x = d2 ++ '|' :: y → d1 = d2 ∧ x = y := by
  intro d1
  induction d1 with
  | nil =>
    intro d2 x y h1 h2 h
    cases d2 with
    | nil => simpa using h
    | cons c d2' =>
      rw [List.nil_append, List.cons_append] at h
      have hc : '|' = c := (List.cons.inj h).1
      exact absurd (List.mem_cons.mpr (Or.inl hc)) h2
  | cons c d1' ih =>
    intro d2 x y h1 h2 h
    cases d2 with
    | nil =>
      rw [List.nil_append, List.cons_append] at h
      have hc : c = '|' := (List.cons.inj h).1
      exact absurd (List.mem_cons.mpr (Or.inl hc.symm)) h1
    | cons c2 d2' =>
      simp only [List.cons_append, List.cons.injEq] at h
      obtain ⟨hc, hrest⟩ := h
      have h1' : ¬ '|' ∈ d1' := fun hm => h1 (List.mem_cons_of_mem c hm)
      have h2' : ¬ '|' ∈ d2' := fun hm => h2 (List.mem_cons_of_mem c2 hm)
      obtain ⟨hd, hxy⟩ := ih d2' x y h1' h2' hrest
      exact ⟨by rw [hc, hd], hxy⟩

/-- The grouping key of a commit equals a stored entry's key exactly
when the commit's UTC date and author email match the entry's stored
fields. -/
theorem dsKey_eq_iff (repoName : Str) (c : GitCommit) (s : DailyStat)
    (hrepo : s.repoName = repoName) (hdate : ¬ '|' ∈ s.date) :
    dsKey repoName c = s.date ++ '|' :: s.repoName ++ '|' :: s.authorEmail ↔
      (isoDatePart c.committedAt = s.date ∧ c.authorEmail = s.authorEmail) := by
  constructor
  · intro h
    unfold dsKey at h
    rw [List.append_assoc, List.append_assoc, List.cons_append,
      List.cons_append] at h
    obtain ⟨hd, hrest⟩ := append_pipe_inj (isoDatePart c.committedAt) s.date
      (repoName ++ '|' :: c.authorEmail) (s.repoName ++ '|' :: s.authorEmail)
      (pipe_not_mem_isoDatePart c.committedAt) hdate h
    refine ⟨hd, ?_⟩
    rw [hrepo] at hrest
    have h2 := List.append_cancel_left hrest
    exact (List.cons.inj h2).2
  · intro ⟨hd, he⟩
    unfold dsKey
    rw [hd, he, hrepo]

@[simp] theorem freshStat_date (repoName : Str) (c : GitCommit) :
    (freshStat repoName c).date = isoDatePart c.committedAt := rfl

@[simp] theorem freshStat_repo (repoName : Str) (c : GitCommit) :
    (freshStat repoName c).repoName = repoName := rfl

@[simp] theorem freshStat_email (repoName : Str) (c : GitCommit) :
    (freshStat repoName c).authorEmail = c.authorEmail := rfl

@[simp] theorem bumpStat_date (s : DailyStat) (c : GitCommit) :
    (bumpStat s c).date = s.date := rfl

@[simp] theorem bumpStat_repo (s : DailyStat) (c : GitCommit) :
    (bumpStat s c).repoName = s.repoName := rfl

@[simp] theorem bumpStat_email (s : DailyStat) (c : GitCommit) :
    (bumpStat s c).authorEmail = s.authorEmail := rfl

/-- Invariant of the daily-stats fold: keys are pairwise distinct,
every processed commit's key is present, and every entry records its
own key, the fixed repo name, a pipe-free date, and exactly the counts
and sums of the processed commits of its key. -/
def dsInv (repoName : Str) (done : List GitCommit)
    (m : List (Str × DailyStat)) : Prop :=
  (m.map Prod.fst).Nodup ∧
  (∀ c ∈ done, dsKey repoName c ∈ m.map Prod.fst) ∧
  (∀ p ∈ m,
    p.1 = p.2.date ++ '|' :: p.2.repoName ++ '|' :: p.2.authorEmail ∧
    p.2.repoName = repoName ∧
    ¬ '|' ∈ p.2.date ∧
    done.filter (fun c => decide (dsKey repoName c = p.1)) ≠ [] ∧
    p.2.commitsCount =
      (done.filter (fun c => decide (dsKey repoName c = p.1))).length ∧
    p.2.additions =
      ((done.filter (fun c => decide (dsKey repoName c = p.1))).map
        GitCommit.additions).sum ∧
    p.2.deletions =
      ((done.filter (fun c => decide (dsKey repoName c = p.1))).map
        GitCommit.deletions).sum ∧
    p.2.filesChanged =
      ((done.filter (fun c => decide (dsKey repoName c = p.1))).map
        GitCommit.filesChanged).sum)

theorem dsInv_step (repoName : Str) (done : List GitCommit)
    (m : List (Str × DailyStat)) (c : GitCommit) (h : dsInv repoName done m) :
    dsInv repoName (done ++ [c]) (dsUpdate repoName c m) := by
  obtain ⟨hnd, hpres, hent⟩ := h
  by_cases hm : dsKey repoName c ∈ m.map Prod.fst
  · have hmap : dsUpdate repoName c m = m.map (fun p =>
        if p.1 = dsKey repoName c then (p.1, bumpStat p.2 c) else p) := by
      unfold dsUpdate
      exact upsertBy_present_map Prod.fst _ m _ hnd hm
    rw [hmap]
    have hkeys : (m.map (fun p =>
        if p.1 = dsKey repoName c then (p.1, bumpStat p.2 c) else p)).map
          Prod.fst = m.map Prod.fst := by
      rw [List.map_map]
      apply List.map_congr_left
      intro p _
      by_cases hp : p.1 = dsKey repoName c
      · simp [hp]
      · simp [hp]
    refine ⟨by rw [hkeys]; exact hnd, ?_, ?_⟩
    · intro c' hc'
      rw [hkeys]
      rcases List.mem_append.mp hc' with hd | hcc
      · exact hpres c' hd
      · rw [List.mem_singleton.mp hcc]
        exact hm
    · intro p' hp'
      rcases List.mem_map.mp hp' with ⟨p, hpm, hgp⟩
      obtain ⟨hkey, hrepo, hdate, hne, hcnt, hadd, hdel, hfc⟩ := hent p hpm
      by_cases hpk : p.1 = dsKey repoName c
      · have hgp2 : p' = (p.1, bumpStat p.2 c) := by rw [← hgp, if_pos hpk]
        rw [hgp2]
        have hfil : (done ++ [c]).filter
            (fun c' => decide (dsKey repoName c' = p.1)) =
            done.filter (fun c' => decide (dsKey repoName c' = p.1)) ++ [c] := by
          rw [List.filter_append]
          congr 1
          simp [hpk]
        refine ⟨?_, ?_, ?_, ?_, ?_, ?_, ?_, ?_⟩
        · simpa using hkey
        · simpa using hrepo
        · simpa using hdate
        · rw [hfil]
          simp
        · rw [hfil]
          simp [bumpStat, hcnt]
        · rw [hfil]
          simp [bumpStat, hadd]
        · rw [hfil]
          simp [bumpStat, hdel]
        · rw [hfil]
          simp [bumpStat, hfc]
      · have hgp2 : p' = p := by rw [← hgp, if_neg hpk]
        rw [hgp2]
        have hfil : (done ++ [c]).filter
            (fun c' => decide (dsKey repoName c' = p.1)) =
            done.filter (fun c' => decide (dsKey repoName c' = p.1)) := by
          rw [List.filter_append]
          have h0 : [c].filter (fun c' => decide (dsKey repoName c' = p.1)) = [] := by
            simp only [List.filter_cons, List.filter_nil]
            rw [if_neg (by simpa using fun hc => hpk hc.symm)]
          rw [h0, List.append_nil]
        exact ⟨hkey, hrepo, hdate, by rw [hfil]; exact hne,
          by rw [hfil]; exact hcnt, by rw [hfil]; exact hadd,
          by rw [hfil]; exact hdel, by rw [hfil]; exact hfc⟩
  · have habs : dsUpdate repoName c m =
        m ++ [(dsKey repoName c, freshStat repoName c)] := by
      unfold dsUpdate
      exact upsertBy_absent Prod.fst _ m _ hm
    rw [habs]
    have hnodone : ∀ c' ∈ done, ¬ dsKey repoName c' = dsKey repoName c :=
      fun c' hc' he => hm (he ▸ hpres c' hc')
    refine ⟨?_, ?_, ?_⟩
    · rw [List.map_append, List.nodup_append]
      refine ⟨hnd, by simp, ?_⟩
      intro x hx1 hx2
      simp only [List.map_cons, List.map_nil, List.mem_singleton] at hx2
      exact hm (by rw [← hx2]; exact hx1)
    · intro c' hc'
      rw [List.map_append]
      rcases List.mem_append.mp hc' with hd | hcc
      · exact List.mem_append_left _ (hpres c' hd)
      · rw [List.mem_singleton.mp hcc]
        exact List.mem_append_right _ (by simp)
    · intro p' hp'
      rcases List.mem_append.mp hp' with hpm | hpn
      · obtain ⟨hkey, hrepo, hdate, hne, hcnt, hadd, hdel, hfc⟩ := hent p' hpm
        have hpk : ¬ dsKey repoName c = p'.1 := by
          intro he
          exact hm (by rw [he]; exact List.mem_map_of_mem Prod.fst hpm)
        have hfil : (done ++ [c]).filter
            (fun c' => decide (dsKey repoName c' = p'.1)) =
            done.filter (fun c' => decide (dsKey repoName c' = p'.1)) := by
          rw [List.filter_append]
          have h0 : [c].filter (fun c' => decide (dsKey repoName c' = p'.1)) = [] := by
            simp only [List.filter_cons, List.filter_nil]
            rw [if_neg (by simpa using hpk)]
          rw [h0, List.append_nil]
        exact ⟨hkey, hrepo, hdate, by rw [hfil]; exact hne,
          by rw [hfil]; exact hcnt, by rw [hfil]; exact hadd,
          by rw [hfil]; exact hdel, by rw [hfil]; exact hfc⟩
      · rw [List.mem_singleton.mp hpn]
        have hfild : done.filter
            (fun c' => decide (dsKey repoName c' = dsKey repoName c)) = [] := by
          rw [List.filter_eq_nil_iff]
          intro c' hc'
          simp only [decide_eq_true_eq]
          exact hnodone c' hc'
        have hfil : (done ++ [c]).filter
            (fun c' => decide (dsKey repoName c' = dsKey repoName c)) = [c] := by
          rw [List.filter_append, hfild, List.nil_append]
          simp
        refine ⟨rfl, rfl, pipe_not_mem_isoDatePart c.committedAt,
          ?_, ?_, ?_, ?_, ?_⟩
        · show (done ++ [c]).filter
            (fun c' => decide (dsKey repoName c' = dsKey repoName c)) ≠ []
          rw [hfil]
          simp
        · show (freshStat repoName c).commitsCount = _
          rw [hfil]
          simp [freshStat]
        · show (freshStat repoName c).additions = _
          rw [hfil]
          simp [freshStat]
        · show (freshStat repoName c).deletions = _
          rw [hfil]
          simp [freshStat]
        · show (freshStat repoName c).filesChanged = _
          rw [hfil]
          simp [freshStat]

theorem dsInv_fold (repoName : Str) (rest : List GitCommit) :
    ∀ (done : List GitCommit) (m : List (Str × DailyStat)),
    dsInv repoName done m →
    dsInv repoName (done ++ rest)
      (rest.foldl (fun m c => dsUpdate repoName c m) m) := by
  induction rest with
  | nil =>
    intro done m h
    simpa using h
  | cons c rest ih =>
    intro done m h
    have h2 := ih (done ++ [c]) (dsUpdate repoName c m)
      (dsInv_step repoName done m c h)
    rw [List.append_assoc] at h2
    simpa using h2

/-- The input commits of a row's author on the row's UTC date. -/
def dsGroup (commits : List GitCommit) (r : DailyStat) : List GitCommit :=
  commits.filter (fun c => decide (isoDatePart c.committedAt = r.date ∧
    c.authorEmail = r.authorEmail))

/-- C7: `aggregateDailyStats` yields rows carrying the given repo name,
with no two rows for the same (UTC date, author email); every input
commit is covered by a row for its date and email; and every row's
count and sums range over exactly the input commits of that author on
that UTC date. -/
theorem aggregateDailyStats_groups (commits : List GitCommit) (repoName : Str) :
    (∀ r ∈ aggregateDailyStats commits repoName, r.repoName = repoName) ∧
    List.Pairwise
      (fun r1 r2 => ¬ (r1.date = r2.date ∧ r1.authorEmail = r2.authorEmail))
      (aggregateDailyStats commits repoName) ∧
    (∀ c ∈ commits, ∃ r ∈ aggregateDailyStats commits repoName,
      r.date = isoDatePart c.committedAt ∧ r.authorEmail = c.authorEmail) ∧
    (∀ r ∈ aggregateDailyStats commits repoName,
      dsGroup commits r ≠ [] ∧
      r.commitsCount = (dsGroup commits r).length ∧
      r.additions = ((dsGroup commits r).map GitCommit.additions).sum ∧
      r.deletions = ((dsGroup commits r).map GitCommit.deletions).sum ∧
      r.filesChanged = ((dsGroup commits r).map GitCommit.filesChanged).sum) := by
  have hinv := dsInv_fold repoName commits [] []
    ⟨by simp, by simp, by simp⟩
  rw [List.nil_append] at hinv
  obtain ⟨hnd, hpres, hent⟩ := hinv
  have hagg : aggregateDailyStats commits repoName =
      (commits.foldl (fun m c => dsUpdate repoName c m) []).map Prod.snd := rfl
  refine ⟨?_, ?_, ?_, ?_⟩
  · intro r hr
    rw [hagg] at hr
    rcases List.mem_map.mp hr with ⟨p, hpm, hpr⟩
    rw [← hpr]
    exact (hent p hpm).2.1
  · rw [hagg, List.pairwise_map]
    have hpw : List.Pairwise (fun p q : Str × DailyStat => p.1 ≠ q.1)
        (commits.foldl (fun m c => dsUpdate repoName c m) []) :=
      List.pairwise_map.mp hnd
    refine hpw.imp_of_mem ?_
    intro p q hpmem hqmem hne
    intro ⟨hdate, hemail⟩
    obtain ⟨hk1, hr1, -, -, -, -, -, -⟩ := hent p hpmem
    obtain ⟨hk2, hr2, -, -, -, -, -, -⟩ := hent q hqmem
    apply hne
    rw [hk1, hk2, hdate, hemail, hr1, hr2]
  · intro c hc
    rcases List.mem_map.mp (hpres c hc) with ⟨p, hpm, hpk⟩
    obtain ⟨hkey, hrepo, hdate, -, -, -, -, -⟩ := hent p hpm
    have hfields := (dsKey_eq_iff repoName c p.2 hrepo hdate).mp
      (by rw [← hkey]; exact hpk.symm)
    exact ⟨p.2, by rw [hagg]; exact List.mem_map_of_mem Prod.snd hpm,
      hfields.1.symm, hfields.2.symm⟩
  · intro r hr
    rw [hagg] at hr
    rcases List.mem_map.mp hr with ⟨p, hpm, hpr⟩
    subst hpr
    obtain ⟨hkey, hrepo, hdate, hne, hcnt, hadd, hdel, hfc⟩ := hent p hpm
    have hfil : dsGroup commits p.2 = commits.filter
        (fun c => decide (dsKey repoName c = p.1)) := by
      unfold dsGroup
      apply List.filter_congr
      intro c _
      rw [decide_eq_decide]
      rw [hkey]
      exact (dsKey_eq_iff repoName c p.2 hrepo hdate).symm
    rw [hfil]
    exact ⟨hne, hcnt, hadd, hdel, hfc⟩

/-- Witness for C7: three concrete commits, two by the same author on
1970-01-01 (3+4 additions), one by another author the next day, produce
a row for the pair with 2 commits — and the matching input group
indeed has two commits. -/
theorem aggregateDailyStats_groups_witness :
    (⟨"1970-01-01".data, "repo".data, "a@x.com".data, 2, 7, 3, 3⟩ : DailyStat) ∈
      aggregateDailyStats [wAlice1, wAlice2, wBob] "repo".data ∧
    (dsGroup [wAlice1, wAlice2, wBob]
      (⟨"1970-01-01".data, "repo".data, "a@x.com".data, 2, 7, 3, 3⟩ : DailyStat)).length
      = 2 := by
  have hmem : (⟨"1970-01-01".data, "repo".data, "a@x.com".data, 2, 7, 3, 3⟩ :
      DailyStat) ∈ aggregateDailyStats [wAlice1, wAlice2, wBob] "repo".data := by
    decide
  have h := (aggregateDailyStats_groups [wAlice1, wAlice2, wBob]
    "repo".data).2.2.2 _ hmem
  exact ⟨hmem, h.2.1.symm⟩

end GitETL
